import Mathlib

/-!
Verification of the configuration translation and merge engine of the
`lhm` (lefthook merge) tool, shallowly embedded from `src/main.rs` and
`src/adapters/pre_commit.rs`.

The generic structured document type (`serde_yaml::Value`) is modelled by
`Yaml`.  Mappings are insertion-ordered association lists, mirroring the
`IndexMap` underlying `serde_yaml::Mapping`:

- `Mapping::get` finds the (unique) entry with the given key;
- `Mapping::insert` replaces the value of an existing key in place, or
  appends a fresh key at the end;
- `Mapping::remove` is `swap_remove`: the removed entry's position is
  filled with the last entry of the map (serde_yaml 0.9 semantics).

Floating point numbers are not modelled (no claim depends on numeric
values; scalars of any kind are treated opaquely by the code).
-/

inductive Yaml where
  | null : Yaml
  | bool : Bool → Yaml
  | int : Int → Yaml
  | str : String → Yaml
  | seq : List Yaml → Yaml
  | map : List (Yaml × Yaml) → Yaml

mutual

def yamlDecEq : (a b : Yaml) → Decidable (a = b)
  | .null, .null => isTrue rfl
  | .bool x, .bool y =>
    match decEq x y with
    | isTrue h => isTrue (by rw [h])
    | isFalse h => isFalse (fun hh => h (by injection hh))
  | .int x, .int y =>
    match decEq x y with
    | isTrue h => isTrue (by rw [h])
    | isFalse h => isFalse (fun hh => h (by injection hh))
  | .str x, .str y =>
    match decEq x y with
    | isTrue h => isTrue (by rw [h])
    | isFalse h => isFalse (fun hh => h (by injection hh))
  | .seq xs, .seq ys =>
    match yamlListDecEq xs ys with
    | isTrue h => isTrue (by rw [h])
    | isFalse h => isFalse (fun hh => h (by injection hh))
  | .map xs, .map ys =>
    match yamlPairListDecEq xs ys with
    | isTrue h => isTrue (by rw [h])
    | isFalse h => isFalse (fun hh => h (by injection hh))
  | .null, .bool _ => isFalse (fun h => Yaml.noConfusion h)
  | .null, .int _ => isFalse (fun h => Yaml.noConfusion h)
  | .null, .str _ => isFalse (fun h => Yaml.noConfusion h)
  | .null, .seq _ => isFalse (fun h => Yaml.noConfusion h)
  | .null, .map _ => isFalse (fun h => Yaml.noConfusion h)
  | .bool _, .null => isFalse (fun h => Yaml.noConfusion h)
  | .bool _, .int _ => isFalse (fun h => Yaml.noConfusion h)
  | .bool _, .str _ => isFalse (fun h => Yaml.noConfusion h)
  | .bool _, .seq _ => isFalse (fun h => Yaml.noConfusion h)
  | .bool _, .map _ => isFalse (fun h => Yaml.noConfusion h)
  | .int _, .null => isFalse (fun h => Yaml.noConfusion h)
  | .int _, .bool _ => isFalse (fun h => Yaml.noConfusion h)
  | .int _, .str _ => isFalse (fun h => Yaml.noConfusion h)
  | .int _, .seq _ => isFalse (fun h => Yaml.noConfusion h)
  | .int _, .map _ => isFalse (fun h => Yaml.noConfusion h)
  | .str _, .null => isFalse (fun h => Yaml.noConfusion h)
  | .str _, .bool _ => isFalse (fun h => Yaml.noConfusion h)
  | .str _, .int _ => isFalse (fun h => Yaml.noConfusion h)
  | .str _, .seq _ => isFalse (fun h => Yaml.noConfusion h)
  | .str _, .map _ => isFalse (fun h => Yaml.noConfusion h)
  | .seq _, .null => isFalse (fun h => Yaml.noConfusion h)
  | .seq _, .bool _ => isFalse (fun h => Yaml.noConfusion h)
  | .seq _, .int _ => isFalse (fun h => Yaml.noConfusion h)
  | .seq _, .str _ => isFalse (fun h => Yaml.noConfusion h)
  | .seq _, .map _ => isFalse (fun h => Yaml.noConfusion h)
  | .map _, .null => isFalse (fun h => Yaml.noConfusion h)
  | .map _, .bool _ => isFalse (fun h => Yaml.noConfusion h)
  | .map _, .int _ => isFalse (fun h => Yaml.noConfusion h)
  | .map _, .str _ => isFalse (fun h => Yaml.noConfusion h)
  | .map _, .seq _ => isFalse (fun h => Yaml.noConfusion h)

def yamlListDecEq : (a b : List Yaml) → Decidable (a = b)
  | [], [] => isTrue rfl
  | [], _ :: _ => isFalse (fun h => List.noConfusion h)
  | _ :: _, [] => isFalse (fun h => List.noConfusion h)
  | x :: xs, y :: ys =>
    match yamlDecEq x y with
    | isFalse h => isFalse (fun hh => h (by injection hh))
    | isTrue h1 =>
      match yamlListDecEq xs ys with
      | isTrue h2 => isTrue (by rw [h1, h2])
      | isFalse h => isFalse (fun hh => h (by injection hh))

def yamlPairListDecEq : (a b : List (Yaml × Yaml)) → Decidable (a = b)
  | [], [] => isTrue rfl
  | [], _ :: _ => isFalse (fun h => List.noConfusion h)
  | _ :: _, [] => isFalse (fun h => List.noConfusion h)
  | (k1, v1) :: xs, (k2, v2) :: ys =>
    match yamlDecEq k1 k2 with
    | isFalse h => isFalse (fun hh => by injection hh with h1 h2; exact h (congrArg Prod.fst h1))
    | isTrue hk =>
      match yamlDecEq v1 v2 with
      | isFalse h => isFalse (fun hh => by injection hh with h1 h2; exact h (congrArg Prod.snd h1))
      | isTrue hv =>
        match yamlPairListDecEq xs ys with
        | isTrue ht => isTrue (by rw [hk, hv, ht])
        | isFalse h => isFalse (fun hh => h (by injection hh))

end

instance : DecidableEq Yaml := yamlDecEq

/-- `Value::as_str` -/
def asStr : Yaml → Option String
  | .str s => some s
  | _ => none

/-- `Mapping::get` (first entry with the given key; keys are unique in an
`IndexMap`, so first = only). -/
def mapGet : List (Yaml × Yaml) → Yaml → Option Yaml
  | [], _ => none
  | e :: rest, k => if e.1 = k then some e.2 else mapGet rest k

/-- `Mapping::insert`: replace the value of an existing key in place,
otherwise append at the end. -/
def mapInsert : List (Yaml × Yaml) → Yaml → Yaml → List (Yaml × Yaml)
  | [], k, v => [(k, v)]
  | e :: rest, k, v => if e.1 = k then (k, v) :: rest else e :: mapInsert rest k v

/-- `Mapping::remove` = `IndexMap::swap_remove`: the removed entry's
position is taken by the last entry of the map. -/
def swapRemovePair : List (Yaml × Yaml) → Yaml → Option Yaml × List (Yaml × Yaml)
  | [], _ => (none, [])
  | e :: rest, k =>
    if e.1 = k then
      match rest.getLast? with
      | none => (some e.2, [])
      | some last => (some e.2, last :: rest.dropLast)
    else
      let p := swapRemovePair rest k
      (p.1, e :: p.2)

/-- In-place update of the value stored at a key (models mutating through
`get_mut`); entries with other keys keep their positions. -/
def setValue (m : List (Yaml × Yaml)) (k v : Yaml) : List (Yaml × Yaml) :=
  m.map (fun e => if e.1 = k then (e.1, v) else e)

/-- Keys of a mapping, in order. -/
def mapKeys (m : List (Yaml × Yaml)) : List Yaml := m.map Prod.fst

/-- The `IndexMap` representation invariant: keys are pairwise distinct. -/
def keysNodup (m : List (Yaml × Yaml)) : Prop := (mapKeys m).Nodup

instance (m : List (Yaml × Yaml)) : Decidable (keysNodup m) :=
  inferInstanceAs (Decidable (mapKeys m).Nodup)

/-! ## The merge engine (`src/main.rs`) -/

/-- `GIT_HOOKS` (main.rs): the fixed, closed set of recognized hook names. -/
def GIT_HOOKS : List String :=
  ["applypatch-msg", "commit-msg", "fsmonitor-watchman", "post-applypatch",
   "post-checkout", "post-commit", "post-merge", "post-receive", "post-rewrite",
   "post-update", "pre-applypatch", "pre-auto-gc", "pre-commit",
   "pre-merge-commit", "pre-push", "pre-rebase", "pre-receive",
   "prepare-commit-msg", "push-to-checkout", "reference-transaction",
   "sendemail-validate", "update"]

/-- `is_hook_name` (main.rs). -/
def is_hook_name (name : String) : Bool := GIT_HOOKS.contains name

/-- `SERIAL_HOOKS` (main.rs): hooks whose commands mutate shared state. -/
def SERIAL_HOOKS : List String :=
  ["applypatch-msg", "commit-msg", "pre-commit", "pre-merge-commit", "prepare-commit-msg"]

/-- Body of the loop in `set_stage_fixed` (main.rs): add `stage_fixed: true`
to one command value when it is a mapping. -/
def set_stage_fixed_cmd (c : Yaml × Yaml) : Yaml × Yaml :=
  match c.2 with
  | .map cmd_map => (c.1, .map (mapInsert cmd_map (.str "stage_fixed") (.bool true)))
  | _ => c

/-- `set_stage_fixed` (main.rs): add `stage_fixed: true` to every command
in a hook mapping. -/
def set_stage_fixed (hook_map : List (Yaml × Yaml)) : List (Yaml × Yaml) :=
  match mapGet hook_map (.str "commands") with
  | some (.map commands) =>
    setValue hook_map (.str "commands") (.map (commands.map set_stage_fixed_cmd))
  | _ => hook_map

/-- Body of the loop in `annotate_hooks` (main.rs), acting on one top-level
entry of the config mapping. -/
def annotate_entry (e : Yaml × Yaml) : Yaml × Yaml :=
  match asStr e.1, e.2 with
  | some name, .map hook_map =>
    if is_hook_name name then
      let hm1 := if !SERIAL_HOOKS.contains name
                 then mapInsert hook_map (.str "parallel") (.bool true)
                 else hook_map
      let hm2 := if name = "pre-commit" ∨ name = "pre-merge-commit"
                 then set_stage_fixed hm1
                 else hm1
      (e.1, .map hm2)
    else e
  | _, _ => e

/-- `annotate_hooks` (main.rs): `parallel: true` on non-serial hooks,
`stage_fixed: true` on each command of `pre-commit` / `pre-merge-commit`. -/
def annotate_hooks (config : Yaml) : Yaml :=
  match config with
  | .map root => .map (root.map annotate_entry)
  | c => c

/-- `job_name` (closure in `merge_jobs`, main.rs):
`job.as_mapping().and_then(|m| m.get("name")).and_then(|v| v.as_str())`. -/
def job_name (job : Yaml) : Option String :=
  match job with
  | .map m => (mapGet m (.str "name")).bind asStr
  | _ => none

/-- The mapping held by an optional value (`if let Some(Value::Mapping(m))`
pattern): empty when the value is absent or not a mapping. -/
def valMapOf : Option Yaml → List (Yaml × Yaml)
  | some (.map c) => c
  | _ => []

/-- The sequence held by an optional value (`if let Some(Value::Sequence(s))`
pattern): empty when the value is absent or not a sequence. -/
def valSeqOf : Option Yaml → List Yaml
  | some (.seq js) => js
  | _ => []

/-- The `commands`/`scripts`-style section of a hook definition as a map
(empty when absent or not a mapping). -/
def sectionMapOf (m : List (Yaml × Yaml)) (s : String) : List (Yaml × Yaml) :=
  valMapOf (mapGet m (.str s))

/-- The `jobs` section of a hook definition as a sequence (empty when
absent or not a sequence). -/
def jobsSeqOf (m : List (Yaml × Yaml)) : List Yaml :=
  valSeqOf (mapGet m (.str "jobs"))

/-- `collect_task_names_from_mapping` (main.rs): task names from the
`commands`/`scripts` map keys (string keys only), then `name` fields of
`jobs` entries. -/
def collect_task_names_from_mapping (mapping : List (Yaml × Yaml)) : List String :=
  ((sectionMapOf mapping "commands").map Prod.fst).filterMap asStr ++
  ((sectionMapOf mapping "scripts").map Prod.fst).filterMap asStr ++
  (jobsSeqOf mapping).filterMap job_name

/-- The retain predicate of `strip_names_from_commands` /
`strip_names_from_scripts` (main.rs):
`k.as_str().is_none_or(|s| !names.contains(s))` applied to a map entry. -/
def keepEntry (names : List String) (e : Yaml × Yaml) : Bool :=
  match asStr e.1 with
  | none => true
  | some s => !names.contains s

/-- The retain predicate of `strip_names_from_jobs` (main.rs): the job has
no `name`, or its `name` is not in `names`. -/
def keepJob (names : List String) (job : Yaml) : Bool :=
  match job_name job with
  | none => true
  | some n => !names.contains n

/-- `strip_names_from_commands` (main.rs): retain commands whose key is not
(a string) in `names`; drop the `commands` key (swap-remove) if it ends up
empty. -/
def strip_names_from_commands (mapping : List (Yaml × Yaml)) (names : List String) :
    List (Yaml × Yaml) :=
  match mapGet mapping (.str "commands") with
  | some (.map cmds) =>
    let cmds1 := cmds.filter (keepEntry names)
    if cmds1.isEmpty then (swapRemovePair mapping (.str "commands")).2
    else setValue mapping (.str "commands") (.map cmds1)
  | _ => mapping

/-- `strip_names_from_scripts` (main.rs). -/
def strip_names_from_scripts (mapping : List (Yaml × Yaml)) (names : List String) :
    List (Yaml × Yaml) :=
  match mapGet mapping (.str "scripts") with
  | some (.map scripts) =>
    let scripts1 := scripts.filter (keepEntry names)
    if scripts1.isEmpty then (swapRemovePair mapping (.str "scripts")).2
    else setValue mapping (.str "scripts") (.map scripts1)
  | _ => mapping

/-- `strip_names_from_jobs` (main.rs): retain jobs whose `name` is absent
or not in `names`; drop the `jobs` key (swap-remove) if it ends up empty. -/
def strip_names_from_jobs (mapping : List (Yaml × Yaml)) (names : List String) :
    List (Yaml × Yaml) :=
  match mapGet mapping (.str "jobs") with
  | some (.seq jobs) =>
    let jobs1 := jobs.filter (keepJob names)
    if jobs1.isEmpty then (swapRemovePair mapping (.str "jobs")).2
    else setValue mapping (.str "jobs") (.seq jobs1)
  | _ => mapping

/-- The fold underlying `merge_maps` (main.rs): insert every repo entry
into the global map. -/
def mergeMapsList (g r : List (Yaml × Yaml)) : List (Yaml × Yaml) :=
  r.foldl (fun acc e => mapInsert acc e.1 e.2) g

/-- `merge_maps` (main.rs): merge two YAML maps by key, repo values
override global values; if either side is not a mapping, repo wins. -/
def merge_maps (global repo : Yaml) : Yaml :=
  match global, repo with
  | .map g, .map r => .map (mergeMapsList g r)
  | _, repo => repo

/-- `merge_jobs` (main.rs): keep global jobs not overridden by a
same-named repo job, then append all repo jobs. -/
def merge_jobs (global repo : Yaml) : Yaml :=
  match global, repo with
  | .seq global_jobs, .seq repo_jobs =>
    let repo_names : List (Option String) := repo_jobs.map job_name
    let kept := global_jobs.filter (fun job =>
      match job_name job with
      | some name => !repo_names.contains (some name)
      | none => true)
    .seq (kept ++ repo_jobs)
  | _, repo => repo

/-- Body of the per-entry loop in `merge_hook` (main.rs). -/
def merge_hook_step (acc : List (Yaml × Yaml)) (e : Yaml × Yaml) : List (Yaml × Yaml) :=
  let key_str := (asStr e.1).getD ""
  if key_str = "commands" ∨ key_str = "scripts" then
    match swapRemovePair acc e.1 with
    | (some global_val, acc1) => mapInsert acc1 e.1 (merge_maps global_val e.2)
    | (none, acc1) => mapInsert acc1 e.1 e.2
  else if key_str = "jobs" then
    match swapRemovePair acc e.1 with
    | (some global_val, acc1) => mapInsert acc1 e.1 (merge_jobs global_val e.2)
    | (none, acc1) => mapInsert acc1 e.1 e.2
  else
    mapInsert acc e.1 e.2

/-- The strip phase of `merge_hook` (main.rs): when the repo declares any
task names, remove them from the global definition across all three
formats (`if !repo_task_names.is_empty() { strip_names_from_commands(..);
strip_names_from_scripts(..); strip_names_from_jobs(..) }`). -/
def strippedGlobal (g : List (Yaml × Yaml)) (names : List String) : List (Yaml × Yaml) :=
  if names.isEmpty then g
  else
    strip_names_from_jobs
      (strip_names_from_scripts (strip_names_from_commands g names) names)
      names

/-- `merge_hook` (main.rs): cross-format strip of repo task names from the
global definition, then per-key merge of the repo entries. -/
def merge_hook (global repo : Yaml) : Yaml :=
  match global, repo with
  | .map g, .map r =>
    let repo_task_names := collect_task_names_from_mapping r
    .map (r.foldl merge_hook_step (strippedGlobal g repo_task_names))
  | _, repo => repo

/-- Body of the per-entry loop in `merge_configs` (main.rs). -/
def merge_configs_step (acc : List (Yaml × Yaml)) (e : Yaml × Yaml) : List (Yaml × Yaml) :=
  if is_hook_name ((asStr e.1).getD "") then
    match swapRemovePair acc e.1 with
    | (some global_val, acc1) => mapInsert acc1 e.1 (merge_hook global_val e.2)
    | (none, acc1) => mapInsert acc1 e.1 e.2
  else
    mapInsert acc e.1 e.2

/-- `merge_configs` (main.rs): merge two lefthook configs, repo takes
precedence over global; if either side is not a mapping, repo wins. -/
def merge_configs (global repo : Yaml) : Yaml :=
  match global, repo with
  | .map g, .map r => .map (r.foldl merge_configs_step g)
  | _, repo => repo

/-! ## The pre-commit adapter (`src/adapters/pre_commit.rs`) -/

/-- `Hook` (pre_commit.rs): the parsed subset of a pre-commit hook entry.
Serde defaults: empty lists / `None` options, `pass_filenames` true. -/
structure Hook where
  id : String
  entry : Option String
  args : List String
  stages : List String
  files : Option String
  exclude : Option String
  pass_filenames : Bool
  types : List String
  types_or : List String

/-- `Repo` (pre_commit.rs). -/
structure Repo where
  repo : String
  hooks : List Hook

/-- `PreCommitConfig` (pre_commit.rs). -/
structure PreCommitConfig where
  repos : List Repo
  default_stages : List String

/-- `hook_matches_stage` (pre_commit.rs): fall back to `default_stages`
when the hook has no explicit `stages`; empty means all stages. -/
def hook_matches_stage (hook : Hook) (default_stages : List String) (hook_name : String) : Bool :=
  let stages := if hook.stages.isEmpty then default_stages else hook.stages
  stages.isEmpty || stages.any (fun s => s = hook_name)

/-- `type_to_extensions` (pre_commit.rs): fixed tag-to-extension table. -/
def type_to_extensions (ty : String) : Option String :=
  match ty with
  | "python" => some "py"
  | "javascript" => some "js"
  | "jsx" => some "jsx"
  | "typescript" => some "ts"
  | "tsx" => some "tsx"
  | "ruby" => some "rb"
  | "rust" => some "rs"
  | "go" => some "go"
  | "java" => some "java"
  | "c" => some "c"
  | "c++" => some "cpp"
  | "cpp" => some "cpp"
  | "c#" => some "cs"
  | "csharp" => some "cs"
  | "yaml" => some "yml,yaml"
  | "json" => some "json"
  | "toml" => some "toml"
  | "markdown" => some "md"
  | "shell" => some "sh"
  | "bash" => some "sh"
  | "zsh" => some "sh"
  | "sh" => some "sh"
  | "css" => some "css"
  | "scss" => some "scss"
  | "html" => some "html"
  | "xml" => some "xml"
  | "sql" => some "sql"
  | "swift" => some "swift"
  | "kotlin" => some "kt"
  | "scala" => some "scala"
  | "haskell" => some "hs"
  | "lua" => some "lua"
  | "perl" => some "pl"
  | "php" => some "php"
  | "r" => some "R"
  | _ => none

/-- Splitting a string at commas (`str::split(',')` in Rust), done on the
character list. -/
def splitCommaChars : List Char → List Char → List (List Char)
  | [], acc => [acc.reverse]
  | c :: rest, acc =>
    if c = ',' then acc.reverse :: splitCommaChars rest []
    else splitCommaChars rest (c :: acc)

/-- `str::split(',')` collected into a list. -/
def splitComma (s : String) : List String :=
  (splitCommaChars s.data []).map String.mk

/-- Lexicographic comparison on character lists by code point; on UTF-8
strings this coincides with Rust's byte-wise `&str` ordering. -/
def strLtChars : List Char → List Char → Bool
  | [], [] => false
  | [], _ :: _ => true
  | _ :: _, [] => false
  | a :: as, b :: bs =>
    if a.toNat < b.toNat then true
    else if b.toNat < a.toNat then false
    else strLtChars as bs

/-- Rust `&str` ordering. -/
def strLtB (a b : String) : Bool := strLtChars a.data b.data

/-- Insertion into a list sorted by Rust `&str` order. -/
def insertStr (x : String) : List String → List String
  | [] => [x]
  | y :: ys => if strLtB x y then x :: y :: ys else y :: insertStr x ys

/-- Sorting by Rust `&str` order; extensionally the unique sorted
permutation also produced by Rust `sort_unstable`. -/
def sortStrings : List String → List String
  | [] => []
  | x :: xs => insertStr x (sortStrings xs)

/-- `Vec::dedup`: remove consecutive duplicates. -/
def dedupStr : List String → List String
  | [] => []
  | [x] => [x]
  | x :: y :: rest => if x = y then dedupStr (y :: rest) else x :: dedupStr (y :: rest)

/-- `types_to_glob` (pre_commit.rs): collect extensions of `types` then
`types_or` through the table (comma-splitting multi-extension entries),
sort, dedup, and render a glob. -/
def types_to_glob (types types_or : List String) : Option String :=
  let extensions :=
    (types.filterMap type_to_extensions).flatMap splitComma ++
    (types_or.filterMap type_to_extensions).flatMap splitComma
  match dedupStr (sortStrings extensions) with
  | [] => none
  | [e] => some ("*." ++ e)
  | es => some ("*.\x7b" ++ String.intercalate "," es ++ "\x7d")

/-- `translate_hook` (pre_commit.rs): `None` when the hook has no `entry`;
otherwise `run` = entry + args + optional staged-files placeholder, plus
optional `files` / `exclude` / `glob`. -/
def translate_hook (hook : Hook) : Option (List (Yaml × Yaml)) :=
  match hook.entry with
  | none => none
  | some entry =>
    let run_parts := [entry] ++ hook.args ++
      (if hook.pass_filenames then ["\x7bstaged_files\x7d"] else [])
    let cmd0 : List (Yaml × Yaml) := [(.str "run", .str (String.intercalate " " run_parts))]
    let cmd1 := match hook.files with
      | some files => mapInsert cmd0 (.str "files") (.str files)
      | none => cmd0
    let cmd2 := match hook.exclude with
      | some exclude => mapInsert cmd1 (.str "exclude") (.str exclude)
      | none => cmd1
    let cmd3 := match types_to_glob hook.types hook.types_or with
      | some glob => mapInsert cmd2 (.str "glob") (.str glob)
      | none => cmd2
    some cmd3

/-- Body of the inner hook loop of `PreCommitAdapter::generate_config`
(pre_commit.rs): skip hooks that do not match the stage, insert the
translation of the others under the hook's `id`. -/
def pre_commit_hook_step (ds : List String) (hn : String)
    (cmds : List (Yaml × Yaml)) (hook : Hook) : List (Yaml × Yaml) :=
  if !hook_matches_stage hook ds hn then cmds
  else
    match translate_hook hook with
    | some cmd => mapInsert cmds (.str hook.id) (.map cmd)
    | none => cmds

/-- Body of the outer repo loop of `PreCommitAdapter::generate_config`
(pre_commit.rs): non-`local` repos are skipped. -/
def pre_commit_repo_step (ds : List String) (hn : String)
    (commands : List (Yaml × Yaml)) (repo : Repo) : List (Yaml × Yaml) :=
  if repo.repo ≠ "local" then commands
  else repo.hooks.foldl (pre_commit_hook_step ds hn) commands

/-- The `commands` accumulation loop of
`PreCommitAdapter::generate_config` (pre_commit.rs): only `repo: local`
repos, only stage-matching hooks, only hooks `translate_hook` accepts. -/
def generate_commands (config : PreCommitConfig) (hook_name : String) : List (Yaml × Yaml) :=
  config.repos.foldl (pre_commit_repo_step config.default_stages hook_name) []

/-- `PreCommitAdapter::generate_config` (pre_commit.rs).  The file read
and YAML parse (`fs::read_to_string(..).ok()?` and
`serde_yaml::from_str(..).ok()?`) are modelled by the `parsed` parameter:
`none` is a read or parse failure of `.pre-commit-config.yaml`. -/
def generate_config (parsed : Option PreCommitConfig) (hook_name : String) : Option Yaml :=
  match parsed with
  | none => none
  | some config =>
    let commands := generate_commands config hook_name
    if commands.isEmpty then none
    else some (.map [(.str hook_name, .map [(.str "commands", .map commands)])])

/-! ## The run pipeline (`run_hook` / `resolve_config`, main.rs)

File reads are modelled by passing their outcomes as parameters:
an `Except String Yaml` is the result of `read_yaml` on a config file
(`.error` = read or parse failure), and an `Option` wraps sources that
may not exist.  An `.error` result of the pipeline means the run aborts
before any document is written or the downstream engine is invoked. -/

/-- `resolve_config` (main.rs): repo config (read via `read_yaml`, whose
failure is fatal) takes priority, then the adapter config, else the
global config alone. -/
def resolve_config (global : Yaml) (repoRead : Option (Except String Yaml))
    (adapter_config : Option Yaml) : Except String Yaml :=
  match repoRead, adapter_config with
  | some rv, _ =>
    match rv with
    | .ok v => .ok (merge_configs global v)
    | .error e => .error e
  | none, some av => .ok (merge_configs global av)
  | none, none => .ok global

/-- The configuration document computed by `run_hook` (main.rs) and handed
to the downstream engine: the global read aborts the run on failure; the
adapter is consulted only when there is no repo config, and its generated
fragment (`adapterGen`, output of `generate_config`) is annotated by
`adapter_config_for` before the merge. -/
def run_hook_config (globalRead : Except String Yaml)
    (repoRead : Option (Except String Yaml)) (adapterGen : Option Yaml) :
    Except String Yaml :=
  match globalRead with
  | .error e => .error e
  | .ok global =>
    let adapter_config :=
      match repoRead with
      | none => adapterGen.map annotate_hooks
      | some _ => none
    resolve_config global repoRead adapter_config

/-! ## Association-list lemmas (the `IndexMap` operations) -/

theorem mapGet_eq_none_iff {m : List (Yaml × Yaml)} {k : Yaml} :
    mapGet m k = none ↔ k ∉ mapKeys m := by
  induction m with
  | nil => simp [mapGet, mapKeys]
  | cons e rest ih =>
    by_cases h : e.1 = k
    · simp [mapGet, mapKeys, h]
    · simp [mapGet, mapKeys, h, ih, Ne.symm h]

theorem mapGet_mem {m : List (Yaml × Yaml)} {k v : Yaml} (h : mapGet m k = some v) :
    (k, v) ∈ m := by
  induction m with
  | nil => simp [mapGet] at h
  | cons e rest ih =>
    by_cases he : e.1 = k
    · rw [mapGet, if_pos he] at h
      injection h with hv
      obtain ⟨e1, e2⟩ := e
      simp only at he hv
      rw [← he, ← hv]
      exact List.mem_cons_self _ _
    · rw [mapGet, if_neg he] at h
      exact List.mem_cons_of_mem _ (ih h)

theorem mapGet_eq_some_iff {m : List (Yaml × Yaml)} (hm : keysNodup m) {k v : Yaml} :
    mapGet m k = some v ↔ (k, v) ∈ m := by
  constructor
  · exact mapGet_mem
  · intro hmem
    induction m with
    | nil => simp at hmem
    | cons e rest ih =>
      rw [keysNodup, mapKeys, List.map_cons, List.nodup_cons] at hm
      rcases List.mem_cons.1 hmem with h | h
      · rw [← h]
        simp [mapGet]
      · have hk : k ∈ mapKeys rest := List.mem_map_of_mem Prod.fst h
        have hne : e.1 ≠ k := by
          intro hh
          exact hm.1 (hh ▸ hk)
        simp only [mapGet, hne, if_false]
        exact ih hm.2 h

theorem mapGet_perm {m m' : List (Yaml × Yaml)} (hm : keysNodup m) (hp : m.Perm m') (k : Yaml) :
    mapGet m k = mapGet m' k := by
  have hm' : keysNodup m' := (hp.map Prod.fst).nodup_iff.1 hm
  cases h : mapGet m k with
  | some v =>
    exact ((mapGet_eq_some_iff hm').2 (hp.mem_iff.1 (mapGet_mem h))).symm
  | none =>
    rw [mapGet_eq_none_iff] at h
    have : k ∉ mapKeys m' := fun hh => h ((hp.map Prod.fst).mem_iff.2 hh)
    exact (mapGet_eq_none_iff.2 this).symm

theorem mapGet_mapInsert_self (m : List (Yaml × Yaml)) (k v : Yaml) :
    mapGet (mapInsert m k v) k = some v := by
  induction m with
  | nil => simp [mapInsert, mapGet]
  | cons e rest ih =>
    by_cases h : e.1 = k
    · simp [mapInsert, h, mapGet]
    · simp [mapInsert, h, mapGet, ih]

theorem mapGet_mapInsert_other (m : List (Yaml × Yaml)) {k k' : Yaml} (v : Yaml)
    (hne : k' ≠ k) : mapGet (mapInsert m k v) k' = mapGet m k' := by
  induction m with
  | nil => simp [mapInsert, mapGet, Ne.symm hne]
  | cons e rest ih =>
    by_cases h : e.1 = k
    · rw [mapInsert, if_pos h, mapGet, mapGet,
        if_neg (show ¬((k, v).1 = k') from Ne.symm hne),
        if_neg (show ¬(e.1 = k') by rw [h]; exact Ne.symm hne)]
    · rw [mapInsert, if_neg h]
      by_cases h' : e.1 = k'
      · rw [mapGet, mapGet, if_pos h', if_pos h']
      · rw [mapGet, mapGet, if_neg h', if_neg h', ih]

theorem mem_mapKeys_mapInsert {m : List (Yaml × Yaml)} {k v x : Yaml} :
    x ∈ mapKeys (mapInsert m k v) ↔ x = k ∨ x ∈ mapKeys m := by
  induction m with
  | nil => simp [mapInsert, mapKeys]
  | cons e rest ih =>
    by_cases h : e.1 = k
    · subst h
      simp only [mapInsert, if_pos rfl, mapKeys, List.map_cons]
      constructor
      · rintro hx
        rcases List.mem_cons.1 hx with hx | hx
        · exact Or.inl hx
        · exact Or.inr (List.mem_cons_of_mem _ hx)
      · rintro (hx | hx)
        · exact hx ▸ List.mem_cons_self _ _
        · rcases List.mem_cons.1 hx with hx | hx
          · exact hx ▸ List.mem_cons_self _ _
          · exact List.mem_cons_of_mem _ hx
    · simp only [mapInsert, if_neg h, mapKeys, List.map_cons, List.mem_cons]
      rw [mapKeys] at ih
      rw [ih]
      tauto

theorem keysNodup_mapInsert {m : List (Yaml × Yaml)} (hm : keysNodup m) (k v : Yaml) :
    keysNodup (mapInsert m k v) := by
  induction m with
  | nil => simp [mapInsert, keysNodup, mapKeys]
  | cons e rest ih =>
    rw [keysNodup, mapKeys, List.map_cons, List.nodup_cons] at hm
    by_cases h : e.1 = k
    · rw [keysNodup, mapInsert, if_pos h, mapKeys, List.map_cons, List.nodup_cons]
      exact ⟨h ▸ hm.1, hm.2⟩
    · rw [keysNodup, mapInsert, if_neg h, mapKeys, List.map_cons, List.nodup_cons]
      refine ⟨fun hx => ?_, ih hm.2⟩
      rcases mem_mapKeys_mapInsert.1 hx with hx | hx
      · exact h hx
      · exact hm.1 hx

theorem swapRemovePair_fst (m : List (Yaml × Yaml)) (k : Yaml) :
    (swapRemovePair m k).1 = mapGet m k := by
  induction m with
  | nil => simp [swapRemovePair, mapGet]
  | cons e rest ih =>
    by_cases h : e.1 = k
    · cases hl : rest.getLast? <;> simp [swapRemovePair, h, mapGet, hl]
    · simp [swapRemovePair, h, mapGet, ih]

theorem swapRemovePair_cons_pos_none {e : Yaml × Yaml} {k : Yaml}
    {rest : List (Yaml × Yaml)} (he : e.1 = k) (hl : rest.getLast? = none) :
    swapRemovePair (e :: rest) k = (some e.2, []) := by
  simp [swapRemovePair, he, hl]

theorem swapRemovePair_cons_pos_some {e : Yaml × Yaml} {k : Yaml}
    {rest : List (Yaml × Yaml)} {last : Yaml × Yaml} (he : e.1 = k)
    (hl : rest.getLast? = some last) :
    swapRemovePair (e :: rest) k = (some e.2, last :: rest.dropLast) := by
  simp [swapRemovePair, he, hl]

theorem swapRemovePair_cons_neg {e : Yaml × Yaml} {k : Yaml}
    {rest : List (Yaml × Yaml)} (he : ¬e.1 = k) :
    swapRemovePair (e :: rest) k = ((swapRemovePair rest k).1, e :: (swapRemovePair rest k).2) := by
  simp [swapRemovePair, he]

theorem swapRemovePair_snd_of_none {m : List (Yaml × Yaml)} {k : Yaml}
    (h : mapGet m k = none) : (swapRemovePair m k).2 = m := by
  induction m with
  | nil => simp [swapRemovePair]
  | cons e rest ih =>
    rw [mapGet] at h
    by_cases he : e.1 = k
    · rw [if_pos he] at h
      simp at h
    · rw [if_neg he] at h
      rw [swapRemovePair_cons_neg he, ih h]

theorem swapRemovePair_snd_perm {m : List (Yaml × Yaml)} {k v : Yaml}
    (h : mapGet m k = some v) :
    ((k, v) :: (swapRemovePair m k).2).Perm m := by
  induction m with
  | nil => simp [mapGet] at h
  | cons e rest ih =>
    by_cases he : e.1 = k
    · rw [mapGet, if_pos he] at h
      injection h with hv
      have hek : e = (k, v) := by
        obtain ⟨e1, e2⟩ := e
        simp only at he hv
        rw [he, hv]
      cases hl : rest.getLast? with
      | none =>
        have hrest : rest = [] := List.getLast?_eq_none_iff.1 hl
        subst hrest
        rw [swapRemovePair_cons_pos_none he hl, hek]
      | some last =>
        have hsplit : rest.dropLast ++ [last] = rest := List.dropLast_append_getLast? last hl
        rw [swapRemovePair_cons_pos_some he hl, hek]
        refine List.Perm.cons _ ?_
        show (last :: rest.dropLast).Perm rest
        conv_rhs => rw [← hsplit]
        exact @List.perm_append_comm _ [last] rest.dropLast
    · rw [mapGet, if_neg he] at h
      rw [swapRemovePair_cons_neg he]
      exact List.Perm.trans (List.Perm.swap e (k, v) _) (List.Perm.cons e (ih h))

theorem swapRemovePair_snd_sub {m : List (Yaml × Yaml)} {k : Yaml} :
    ∀ x ∈ (swapRemovePair m k).2, x ∈ m := by
  induction m with
  | nil => simp [swapRemovePair]
  | cons e rest ih =>
    intro x hx
    by_cases he : e.1 = k
    · cases hl : rest.getLast? with
      | none =>
        rw [swapRemovePair_cons_pos_none he hl] at hx
        simp at hx
      | some last =>
        rw [swapRemovePair_cons_pos_some he hl] at hx
        rcases List.mem_cons.1 hx with hx | hx
        · rw [hx]
          exact List.mem_cons_of_mem _ (List.mem_of_mem_getLast? hl)
        · exact List.mem_cons_of_mem _ (List.dropLast_subset _ hx)
    · rw [swapRemovePair_cons_neg he] at hx
      rcases List.mem_cons.1 hx with hx | hx
      · rw [hx]
        exact List.mem_cons_self _ _
      · exact List.mem_cons_of_mem _ (ih x hx)

theorem keysNodup_swapRemovePair {m : List (Yaml × Yaml)} (hm : keysNodup m) (k : Yaml) :
    keysNodup (swapRemovePair m k).2 := by
  cases h : mapGet m k with
  | some v =>
    have hp := swapRemovePair_snd_perm h
    have : keysNodup ((k, v) :: (swapRemovePair m k).2) :=
      ((hp.map Prod.fst).nodup_iff).2 hm
    rw [keysNodup, mapKeys, List.map_cons, List.nodup_cons] at this
    exact this.2
  | none =>
    rw [swapRemovePair_snd_of_none h]
    exact hm

theorem mapGet_swapRemovePair_self {m : List (Yaml × Yaml)} (hm : keysNodup m) (k : Yaml) :
    mapGet (swapRemovePair m k).2 k = none := by
  cases h : mapGet m k with
  | some v =>
    have hp := swapRemovePair_snd_perm h
    have hnd : keysNodup ((k, v) :: (swapRemovePair m k).2) :=
      ((hp.map Prod.fst).nodup_iff).2 hm
    rw [keysNodup, mapKeys, List.map_cons, List.nodup_cons] at hnd
    exact mapGet_eq_none_iff.2 hnd.1
  | none =>
    rw [mapGet_eq_none_iff] at h
    refine mapGet_eq_none_iff.2 (fun hx => h ?_)
    rw [mapKeys] at hx ⊢
    rcases List.mem_map.1 hx with ⟨x, hx1, hx2⟩
    exact List.mem_map.2 ⟨x, swapRemovePair_snd_sub x hx1, hx2⟩

theorem mapGet_swapRemovePair_other {m : List (Yaml × Yaml)} (hm : keysNodup m)
    {k k' : Yaml} (hne : k' ≠ k) :
    mapGet (swapRemovePair m k).2 k' = mapGet m k' := by
  cases h : mapGet m k with
  | some v =>
    have hp := swapRemovePair_snd_perm h
    have hnd : keysNodup ((k, v) :: (swapRemovePair m k).2) :=
      ((hp.map Prod.fst).nodup_iff).2 hm
    have := mapGet_perm hnd hp k'
    rw [mapGet, if_neg (by simpa using Ne.symm hne)] at this
    exact this
  | none =>
    rw [swapRemovePair_snd_of_none h]

theorem mapGet_setValue_self {m : List (Yaml × Yaml)} {k w : Yaml}
    (h : mapGet m k = some w) (v : Yaml) : mapGet (setValue m k v) k = some v := by
  induction m with
  | nil => simp [mapGet] at h
  | cons e rest ih =>
    by_cases he : e.1 = k
    · simp [setValue, mapGet, he]
    · rw [mapGet, if_neg he] at h
      simp only [setValue, List.map_cons, if_neg he]
      rw [mapGet, if_neg he]
      exact ih h

theorem mapGet_setValue_other (m : List (Yaml × Yaml)) {k k' : Yaml} (v : Yaml)
    (hne : k' ≠ k) : mapGet (setValue m k v) k' = mapGet m k' := by
  induction m with
  | nil => simp [setValue, mapGet]
  | cons e rest ih =>
    by_cases he : e.1 = k
    · simp only [setValue, List.map_cons, if_pos he]
      rw [mapGet, mapGet,
        if_neg (show ¬((e.1, v).1 = k') by rw [show (e.1, v).1 = e.1 from rfl, he]; exact Ne.symm hne),
        if_neg (show ¬(e.1 = k') by rw [he]; exact Ne.symm hne)]
      exact ih
    · simp only [setValue, List.map_cons, if_neg he]
      by_cases he' : e.1 = k'
      · rw [mapGet, mapGet, if_pos he', if_pos he']
      · rw [mapGet, mapGet, if_neg he', if_neg he']
        exact ih

theorem mapKeys_setValue (m : List (Yaml × Yaml)) (k v : Yaml) :
    mapKeys (setValue m k v) = mapKeys m := by
  induction m with
  | nil => rfl
  | cons e rest ih =>
    by_cases he : e.1 = k <;>
      simp only [setValue, List.map_cons, if_pos, if_neg, he, mapKeys] at ih ⊢ <;>
      simp [ih]

theorem keysNodup_setValue {m : List (Yaml × Yaml)} (hm : keysNodup m) (k v : Yaml) :
    keysNodup (setValue m k v) := by
  rw [keysNodup, mapKeys_setValue]
  exact hm

/-! ## Characterizing the `merge_hook` fold -/

/-- The value a repo entry `(k, v)` ends up with in `merge_hook`, as a
function of the global definition's value at `k` (the per-key combination
performed by the loop of `merge_hook`). -/
def hookCombine (gv : Option Yaml) (k v : Yaml) : Yaml :=
  let key_str := (asStr k).getD ""
  if key_str = "commands" ∨ key_str = "scripts" then
    match gv with
    | some g => merge_maps g v
    | none => v
  else if key_str = "jobs" then
    match gv with
    | some g => merge_jobs g v
    | none => v
  else v

theorem merge_hook_step_get_self (acc : List (Yaml × Yaml)) (e : Yaml × Yaml) :
    mapGet (merge_hook_step acc e) e.1 = some (hookCombine (mapGet acc e.1) e.1 e.2) := by
  have hfst := swapRemovePair_fst acc e.1
  rcases hsw : swapRemovePair acc e.1 with ⟨o, acc1⟩
  rw [hsw] at hfst
  simp only at hfst
  rw [merge_hook_step, hookCombine.eq_def, ← hfst]
  by_cases h1 : (asStr e.1).getD "" = "commands" ∨ (asStr e.1).getD "" = "scripts"
  · rw [if_pos h1, if_pos h1, hsw]
    cases o with
    | some gv => exact mapGet_mapInsert_self ..
    | none => exact mapGet_mapInsert_self ..
  · rw [if_neg h1, if_neg h1]
    by_cases h2 : (asStr e.1).getD "" = "jobs"
    · rw [if_pos h2, if_pos h2, hsw]
      cases o with
      | some gv => exact mapGet_mapInsert_self ..
      | none => exact mapGet_mapInsert_self ..
    · rw [if_neg h2, if_neg h2]
      exact mapGet_mapInsert_self ..

theorem merge_hook_step_get_other {acc : List (Yaml × Yaml)} (hacc : keysNodup acc)
    (e : Yaml × Yaml) {k : Yaml} (hne : k ≠ e.1) :
    mapGet (merge_hook_step acc e) k = mapGet acc k := by
  rcases hsw : swapRemovePair acc e.1 with ⟨o, acc1⟩
  have hother : mapGet acc1 k = mapGet acc k := by
    have := mapGet_swapRemovePair_other hacc (k := e.1) hne
    rw [hsw] at this
    exact this
  rw [merge_hook_step]
  by_cases h1 : (asStr e.1).getD "" = "commands" ∨ (asStr e.1).getD "" = "scripts"
  · rw [if_pos h1, hsw]
    cases o with
    | some gv => rw [mapGet_mapInsert_other _ _ hne, hother]
    | none => rw [mapGet_mapInsert_other _ _ hne, hother]
  · rw [if_neg h1]
    by_cases h2 : (asStr e.1).getD "" = "jobs"
    · rw [if_pos h2, hsw]
      cases o with
      | some gv => rw [mapGet_mapInsert_other _ _ hne, hother]
      | none => rw [mapGet_mapInsert_other _ _ hne, hother]
    · rw [if_neg h2]
      exact mapGet_mapInsert_other _ _ hne

theorem merge_hook_step_keysNodup {acc : List (Yaml × Yaml)} (hacc : keysNodup acc)
    (e : Yaml × Yaml) : keysNodup (merge_hook_step acc e) := by
  rcases hsw : swapRemovePair acc e.1 with ⟨o, acc1⟩
  have hnd : keysNodup acc1 := by
    have := keysNodup_swapRemovePair hacc e.1
    rw [hsw] at this
    exact this
  rw [merge_hook_step]
  by_cases h1 : (asStr e.1).getD "" = "commands" ∨ (asStr e.1).getD "" = "scripts"
  · rw [if_pos h1, hsw]
    cases o with
    | some gv => exact keysNodup_mapInsert hnd ..
    | none => exact keysNodup_mapInsert hnd ..
  · rw [if_neg h1]
    by_cases h2 : (asStr e.1).getD "" = "jobs"
    · rw [if_pos h2, hsw]
      cases o with
      | some gv => exact keysNodup_mapInsert hnd ..
      | none => exact keysNodup_mapInsert hnd ..
    · rw [if_neg h2]
      exact keysNodup_mapInsert hacc ..

theorem merge_hook_fold_keysNodup {acc : List (Yaml × Yaml)} (hacc : keysNodup acc)
    (entries : List (Yaml × Yaml)) :
    keysNodup (entries.foldl merge_hook_step acc) := by
  induction entries generalizing acc with
  | nil => exact hacc
  | cons e rest ih => exact ih (merge_hook_step_keysNodup hacc e)

theorem merge_hook_fold_get_notmem {acc : List (Yaml × Yaml)} (hacc : keysNodup acc)
    {entries : List (Yaml × Yaml)} {k : Yaml} (hk : k ∉ mapKeys entries) :
    mapGet (entries.foldl merge_hook_step acc) k = mapGet acc k := by
  induction entries generalizing acc with
  | nil => rfl
  | cons e rest ih =>
    rw [mapKeys, List.map_cons] at hk
    have hne : k ≠ e.1 := fun hh => hk (hh ▸ List.mem_cons_self _ _)
    have hk' : k ∉ mapKeys rest := fun hh => hk (List.mem_cons_of_mem _ hh)
    rw [List.foldl_cons, ih (merge_hook_step_keysNodup hacc e) hk',
      merge_hook_step_get_other hacc e hne]

theorem merge_hook_fold_get_mem {acc : List (Yaml × Yaml)} (hacc : keysNodup acc)
    {entries : List (Yaml × Yaml)} (hent : (mapKeys entries).Nodup)
    {k v : Yaml} (hmem : (k, v) ∈ entries) :
    mapGet (entries.foldl merge_hook_step acc) k =
      some (hookCombine (mapGet acc k) k v) := by
  induction entries generalizing acc with
  | nil => simp at hmem
  | cons e rest ih =>
    rw [mapKeys, List.map_cons, List.nodup_cons] at hent
    rcases List.mem_cons.1 hmem with hmem | hmem
    · subst hmem
      have hk : (k, v).1 ∉ mapKeys rest := hent.1
      rw [List.foldl_cons,
        merge_hook_fold_get_notmem (merge_hook_step_keysNodup hacc (k, v)) hk,
        merge_hook_step_get_self]
    · have hkmem : k ∈ mapKeys rest := List.mem_map_of_mem Prod.fst hmem
      have hne : k ≠ e.1 := fun hh => hent.1 (hh ▸ hkmem)
      rw [List.foldl_cons]
      rw [ih (merge_hook_step_keysNodup hacc e) hent.2 hmem,
        merge_hook_step_get_other hacc e hne]

/-- Full per-key characterization of the loop in `merge_hook`: a key of
the repo definition gets the per-key combination of the (stripped) global
value and the repo value; any other key keeps the (stripped) global value. -/
theorem merge_hook_fold_get {acc : List (Yaml × Yaml)} (hacc : keysNodup acc)
    {entries : List (Yaml × Yaml)} (hent : keysNodup entries) (k : Yaml) :
    mapGet (entries.foldl merge_hook_step acc) k =
      match mapGet entries k with
      | some v => some (hookCombine (mapGet acc k) k v)
      | none => mapGet acc k := by
  cases h : mapGet entries k with
  | some v => exact merge_hook_fold_get_mem hacc hent (mapGet_mem h)
  | none => exact merge_hook_fold_get_notmem hacc (mapGet_eq_none_iff.1 h)

/-! ## Task identities and task occurrences inside one hook definition -/

/-- The entries of a `commands`/`scripts`-style map whose key is the task
identity `t`. -/
def tEntries (c : List (Yaml × Yaml)) (t : String) : List (Yaml × Yaml) :=
  c.filter (fun e => decide (e.1 = Yaml.str t))

/-- The entries of a `jobs` list whose `name` is the task identity `t`. -/
def jEntries (js : List Yaml) (t : String) : List Yaml :=
  js.filter (fun j => decide (job_name j = some t))

/-- The task specs stored under identity `t` in the `commands` section. -/
def cmdTasks (m : List (Yaml × Yaml)) (t : String) : List Yaml :=
  (tEntries (sectionMapOf m "commands") t).map Prod.snd

/-- The task specs stored under identity `t` in the `scripts` section. -/
def scrTasks (m : List (Yaml × Yaml)) (t : String) : List Yaml :=
  (tEntries (sectionMapOf m "scripts") t).map Prod.snd

/-- The `jobs` entries carrying identity `t` (the whole job mapping,
`name` field included, is the task spec in this format). -/
def jobTasks (m : List (Yaml × Yaml)) (t : String) : List Yaml :=
  jEntries (jobsSeqOf m) t

/-- All occurrences of the task identity `t` in a hook definition,
tagged with the declaration format carrying them. -/
def taskOccurrences (m : List (Yaml × Yaml)) (t : String) : List (String × Yaml) :=
  (cmdTasks m t).map (fun v => ("commands", v)) ++
  (scrTasks m t).map (fun v => ("scripts", v)) ++
  (jobTasks m t).map (fun j => ("jobs", j))

/-- How many times the identity `t` resolves in a hook definition, across
the `commands` map, the `scripts` map and the named `jobs` entries. -/
def countName (m : List (Yaml × Yaml)) (t : String) : Nat :=
  (cmdTasks m t).length + (scrTasks m t).length + (jobTasks m t).length

/-- `countName` lifted to a `Yaml` value (0 on non-mappings). -/
def countNameY (y : Yaml) (t : String) : Nat :=
  match y with
  | .map m => countName m t
  | _ => 0

/-- `taskOccurrences` lifted to a `Yaml` value. -/
def occurrencesY (y : Yaml) (t : String) : List (String × Yaml) :=
  match y with
  | .map m => taskOccurrences m t
  | _ => []

theorem asStr_eq_some {y : Yaml} {s : String} : asStr y = some s ↔ y = .str s := by
  cases y <;> simp [asStr]

theorem count_filterMap_asStr (c : List (Yaml × Yaml)) (t : String) :
    ((c.map Prod.fst).filterMap asStr).count t = (tEntries c t).length := by
  induction c with
  | nil => rfl
  | cons e rest ih =>
    rw [List.map_cons, List.filterMap_cons, tEntries, List.filter_cons, ← tEntries]
    rw [List.filterMap_map] at ih
    by_cases hh : e.1 = Yaml.str t
    · rw [if_pos (by simp [hh]), hh]
      simp [asStr, List.count_cons, ih]
    · rw [if_neg (by simp [hh])]
      cases ha : asStr e.1 with
      | none => rw [List.filterMap_map, ih]
      | some s =>
        have hs : s ≠ t := by
          intro hst
          exact hh (by rw [asStr_eq_some.1 ha, hst])
        simp [List.count_cons, hs, ih]

theorem count_filterMap_job_name (js : List Yaml) (t : String) :
    (js.filterMap job_name).count t = (jEntries js t).length := by
  induction js with
  | nil => rfl
  | cons j rest ih =>
    rw [List.filterMap_cons, jEntries, List.filter_cons, ← jEntries]
    by_cases hh : job_name j = some t
    · rw [if_pos (by simp [hh]), hh]
      simp [List.count_cons, ih]
    · rw [if_neg (by simp [hh])]
      cases ha : job_name j with
      | none => rw [ih]
      | some s =>
        have hs : s ≠ t := fun hst => hh (by rw [ha, hst])
        simp [List.count_cons, hs, ih]

/-- The identity count of a hook definition is the multiplicity of the
identity in `collect_task_names_from_mapping`. -/
theorem countName_eq_count_collect (m : List (Yaml × Yaml)) (t : String) :
    countName m t = (collect_task_names_from_mapping m).count t := by
  rw [collect_task_names_from_mapping, List.count_append, List.count_append,
    count_filterMap_asStr, count_filterMap_asStr, count_filterMap_job_name,
    countName, cmdTasks, scrTasks, jobTasks]
  simp [Nat.add_assoc]

theorem mem_collect_iff (m : List (Yaml × Yaml)) (t : String) :
    t ∈ collect_task_names_from_mapping m ↔ 0 < countName m t := by
  rw [countName_eq_count_collect]
  exact (List.count_pos_iff).symm

theorem countName_sections_of_notmem {m : List (Yaml × Yaml)} {t : String}
    (h : t ∉ collect_task_names_from_mapping m) :
    cmdTasks m t = [] ∧ scrTasks m t = [] ∧ jobTasks m t = [] := by
  rw [mem_collect_iff, Nat.not_lt, Nat.le_zero, countName] at h
  refine ⟨List.length_eq_zero.1 ?_, List.length_eq_zero.1 ?_, List.length_eq_zero.1 ?_⟩ <;> omega

/-! ## How merging maps acts on the entries of one task identity -/

theorem tEntries_mapInsert (m : List (Yaml × Yaml)) (k v : Yaml) (t : String) :
    tEntries (mapInsert m k v) t =
      if k = Yaml.str t then (k, v) :: (tEntries m t).drop 1 else tEntries m t := by
  induction m with
  | nil =>
    by_cases hk : k = Yaml.str t
    · simp [mapInsert, tEntries, hk]
    · simp [mapInsert, tEntries, hk]
  | cons e rest ih =>
    by_cases he : e.1 = k
    · rw [mapInsert, if_pos he]
      by_cases hk : k = Yaml.str t
      · rw [if_pos hk]
        have hle : tEntries ((k, v) :: rest) t = (k, v) :: tEntries rest t := by
          rw [tEntries, List.filter_cons, if_pos (by simp [hk]), ← tEntries]
        have hre : tEntries (e :: rest) t = e :: tEntries rest t := by
          rw [tEntries, List.filter_cons, if_pos (by simp [he, hk]), ← tEntries]
        rw [hle, hre]
        rfl
      · rw [if_neg hk]
        have hle : tEntries ((k, v) :: rest) t = tEntries rest t := by
          rw [tEntries, List.filter_cons, if_neg (by simp [hk]), ← tEntries]
        have hre : tEntries (e :: rest) t = tEntries rest t := by
          rw [tEntries, List.filter_cons, if_neg (by simp [he, hk]), ← tEntries]
        rw [hle, hre]
    · rw [mapInsert, if_neg he]
      by_cases he' : e.1 = Yaml.str t
      · have hk : ¬k = Yaml.str t := fun hkk => he (by rw [he', hkk])
        have hle : tEntries (e :: mapInsert rest k v) t = e :: tEntries (mapInsert rest k v) t := by
          rw [tEntries, List.filter_cons, if_pos (by simp [he']), ← tEntries]
        have hre : tEntries (e :: rest) t = e :: tEntries rest t := by
          rw [tEntries, List.filter_cons, if_pos (by simp [he']), ← tEntries]
        rw [if_neg hk, hle, ih, if_neg hk, hre]
      · have hle : tEntries (e :: mapInsert rest k v) t = tEntries (mapInsert rest k v) t := by
          rw [tEntries, List.filter_cons, if_neg (by simp [he']), ← tEntries]
        have hre : tEntries (e :: rest) t = tEntries rest t := by
          rw [tEntries, List.filter_cons, if_neg (by simp [he']), ← tEntries]
        rw [hle, ih, hre]

theorem tEntries_mergeMapsList_zero {r : List (Yaml × Yaml)} {t : String}
    (hr : tEntries r t = []) (g : List (Yaml × Yaml)) :
    tEntries (mergeMapsList g r) t = tEntries g t := by
  induction r generalizing g with
  | nil => rfl
  | cons e rest ih =>
    rw [tEntries, List.filter_cons] at hr
    by_cases he : e.1 = Yaml.str t
    · rw [if_pos (by simp [he])] at hr
      exact absurd hr (List.cons_ne_nil _ _)
    · rw [if_neg (by simp [he]), ← tEntries] at hr
      rw [mergeMapsList, List.foldl_cons, ← mergeMapsList, ih hr,
        tEntries_mapInsert, if_neg he]

theorem tEntries_mergeMapsList_singleton {g r : List (Yaml × Yaml)} {t : String}
    (hg : tEntries g t = []) {o : Yaml × Yaml} (hr : tEntries r t = [o]) :
    tEntries (mergeMapsList g r) t = [o] := by
  induction r generalizing g with
  | nil => simp [tEntries] at hr
  | cons e rest ih =>
    rw [tEntries, List.filter_cons] at hr
    by_cases he : e.1 = Yaml.str t
    · rw [if_pos (by simp [he]), ← tEntries] at hr
      injection hr with h1 h2
      rw [mergeMapsList, List.foldl_cons, ← mergeMapsList,
        tEntries_mergeMapsList_zero h2, tEntries_mapInsert, if_pos he, hg,
        show ((e.1, e.2) : Yaml × Yaml) = e from rfl, h1]
      rfl
    · rw [if_neg (by simp [he]), ← tEntries] at hr
      rw [mergeMapsList, List.foldl_cons, ← mergeMapsList]
      refine ih ?_ hr
      rw [tEntries_mapInsert, if_neg he]
      exact hg

theorem length_tEntries_mergeMapsList_le (g r : List (Yaml × Yaml)) (t : String) :
    (tEntries (mergeMapsList g r) t).length ≤
      (tEntries g t).length + (tEntries r t).length := by
  induction r generalizing g with
  | nil => simp [mergeMapsList, tEntries]
  | cons e rest ih =>
    rw [mergeMapsList, List.foldl_cons, ← mergeMapsList]
    refine le_trans (ih (mapInsert g e.1 e.2)) ?_
    have h2 : (tEntries (e :: rest) t).length =
        (if e.1 = Yaml.str t then 1 else 0) + (tEntries rest t).length := by
      by_cases he : e.1 = Yaml.str t
      · rw [tEntries, List.filter_cons, if_pos (by simp [he]), ← tEntries, if_pos he]
        rw [List.length_cons]
        omega
      · rw [tEntries, List.filter_cons, if_neg (by simp [he]), ← tEntries, if_neg he]
        omega
    have h1 : (tEntries (mapInsert g e.1 e.2) t).length ≤
        (tEntries g t).length + (if e.1 = Yaml.str t then 1 else 0) := by
      rw [tEntries_mapInsert]
      by_cases he : e.1 = Yaml.str t
      · rw [if_pos he, if_pos he]
        simp only [List.length_cons, List.length_drop]
        omega
      · rw [if_neg he, if_neg he]
        omega
    rw [h2]
    omega

/-! ## How the strip phase acts on task occurrences -/

theorem mem_tEntries_key {c : List (Yaml × Yaml)} {t : String} {e : Yaml × Yaml}
    (h : e ∈ tEntries c t) : e.1 = Yaml.str t := by
  rw [tEntries] at h
  simpa using List.of_mem_filter h

theorem mem_jEntries_name {js : List Yaml} {t : String} {j : Yaml}
    (h : j ∈ jEntries js t) : job_name j = some t := by
  rw [jEntries] at h
  simpa using List.of_mem_filter h

theorem tEntries_filter_keepEntry (c : List (Yaml × Yaml)) (names : List String)
    (t : String) :
    tEntries (c.filter (keepEntry names)) t =
      if t ∈ names then [] else tEntries c t := by
  rw [tEntries, List.filter_comm, ← tEntries]
  by_cases ht : t ∈ names
  · rw [if_pos ht, List.filter_eq_nil_iff]
    intro e he
    have hk := mem_tEntries_key he
    simp [keepEntry, hk, asStr, ht]
  · rw [if_neg ht, List.filter_eq_self]
    intro e he
    have hk := mem_tEntries_key he
    simp [keepEntry, hk, asStr, ht]

theorem jEntries_filter_keepJob (js : List Yaml) (names : List String) (t : String) :
    jEntries (js.filter (keepJob names)) t =
      if t ∈ names then [] else jEntries js t := by
  rw [jEntries, List.filter_comm, ← jEntries]
  by_cases ht : t ∈ names
  · rw [if_pos ht, List.filter_eq_nil_iff]
    intro j hj
    have hk := mem_jEntries_name hj
    simp [keepJob, hk, ht]
  · rw [if_neg ht, List.filter_eq_self]
    intro j hj
    have hk := mem_jEntries_name hj
    simp [keepJob, hk, ht]

theorem mapGet_strip_names_from_commands {m : List (Yaml × Yaml)} (hm : keysNodup m)
    (names : List String) {k : Yaml} (hk : ¬k = Yaml.str "commands") :
    mapGet (strip_names_from_commands m names) k = mapGet m k := by
  rw [strip_names_from_commands]
  cases hc : mapGet m (.str "commands") with
  | none => rfl
  | some v =>
    cases v with
    | map cmds =>
      simp only []
      split
      · exact mapGet_swapRemovePair_other hm hk
      · exact mapGet_setValue_other m _ hk
    | null => rfl
    | bool b => rfl
    | int n => rfl
    | str s => rfl
    | seq s => rfl

theorem keysNodup_strip_names_from_commands {m : List (Yaml × Yaml)} (hm : keysNodup m)
    (names : List String) : keysNodup (strip_names_from_commands m names) := by
  rw [strip_names_from_commands]
  cases hc : mapGet m (.str "commands") with
  | none => exact hm
  | some v =>
    cases v with
    | map cmds =>
      simp only []
      split
      · exact keysNodup_swapRemovePair hm _
      · exact keysNodup_setValue hm _ _
    | null => exact hm
    | bool b => exact hm
    | int n => exact hm
    | str s => exact hm
    | seq s => exact hm

theorem cmdTasks_strip_names_from_commands {m : List (Yaml × Yaml)} (hm : keysNodup m)
    (names : List String) (t : String) :
    cmdTasks (strip_names_from_commands m names) t =
      if t ∈ names then [] else cmdTasks m t := by
  rw [strip_names_from_commands]
  cases hc : mapGet m (.str "commands") with
  | none =>
    have hz : cmdTasks m t = [] := by
      rw [cmdTasks, sectionMapOf, hc]
      rfl
    rw [hz]
    split <;> rfl
  | some v =>
    cases v with
    | map cmds =>
      simp only []
      split
      · next hemp =>
        have hnil : cmds.filter (keepEntry names) = [] := by
          simpa [List.isEmpty_iff] using hemp
        rw [cmdTasks, sectionMapOf, mapGet_swapRemovePair_self hm]
        by_cases ht : t ∈ names
        · rw [if_pos ht]
          rfl
        · rw [if_neg ht, cmdTasks, sectionMapOf, hc]
          have hz : tEntries cmds t = [] := by
            have h1 := tEntries_filter_keepEntry cmds names t
            rw [hnil, if_neg ht] at h1
            simpa [tEntries] using h1.symm
          rw [valMapOf, hz]
          rfl
      · next hemp =>
        rw [cmdTasks, sectionMapOf, mapGet_setValue_self hc, valMapOf,
          tEntries_filter_keepEntry]
        by_cases ht : t ∈ names
        · rw [if_pos ht, if_pos ht]
          rfl
        · rw [if_neg ht, if_neg ht, cmdTasks, sectionMapOf, hc, valMapOf]
    | null =>
      have hz : cmdTasks m t = [] := by
        rw [cmdTasks, sectionMapOf, hc]
        rfl
      rw [hz]
      split <;> rfl
    | bool b =>
      have hz : cmdTasks m t = [] := by
        rw [cmdTasks, sectionMapOf, hc]
        rfl
      rw [hz]
      split <;> rfl
    | int n =>
      have hz : cmdTasks m t = [] := by
        rw [cmdTasks, sectionMapOf, hc]
        rfl
      rw [hz]
      split <;> rfl
    | str s =>
      have hz : cmdTasks m t = [] := by
        rw [cmdTasks, sectionMapOf, hc]
        rfl
      rw [hz]
      split <;> rfl
    | seq s =>
      have hz : cmdTasks m t = [] := by
        rw [cmdTasks, sectionMapOf, hc]
        rfl
      rw [hz]
      split <;> rfl

theorem cmdTasks_congr {m m' : List (Yaml × Yaml)}
    (h : mapGet m (.str "commands") = mapGet m' (.str "commands")) (t : String) :
    cmdTasks m t = cmdTasks m' t := by
  rw [cmdTasks, cmdTasks, sectionMapOf, sectionMapOf, h]

theorem scrTasks_congr {m m' : List (Yaml × Yaml)}
    (h : mapGet m (.str "scripts") = mapGet m' (.str "scripts")) (t : String) :
    scrTasks m t = scrTasks m' t := by
  rw [scrTasks, scrTasks, sectionMapOf, sectionMapOf, h]

theorem jobTasks_congr {m m' : List (Yaml × Yaml)}
    (h : mapGet m (.str "jobs") = mapGet m' (.str "jobs")) (t : String) :
    jobTasks m t = jobTasks m' t := by
  rw [jobTasks, jobTasks, jobsSeqOf, jobsSeqOf, h]

theorem mapGet_strip_names_from_scripts {m : List (Yaml × Yaml)} (hm : keysNodup m)
    (names : List String) {k : Yaml} (hk : ¬k = Yaml.str "scripts") :
    mapGet (strip_names_from_scripts m names) k = mapGet m k := by
  rw [strip_names_from_scripts]
  cases hc : mapGet m (.str "scripts") with
  | none => rfl
  | some v =>
    cases v with
    | map scripts =>
      simp only []
      split
      · exact mapGet_swapRemovePair_other hm hk
      · exact mapGet_setValue_other m _ hk
    | null => rfl
    | bool b => rfl
    | int n => rfl
    | str s => rfl
    | seq s => rfl

theorem keysNodup_strip_names_from_scripts {m : List (Yaml × Yaml)} (hm : keysNodup m)
    (names : List String) : keysNodup (strip_names_from_scripts m names) := by
  rw [strip_names_from_scripts]
  cases hc : mapGet m (.str "scripts") with
  | none => exact hm
  | some v =>
    cases v with
    | map scripts =>
      simp only []
      split
      · exact keysNodup_swapRemovePair hm _
      · exact keysNodup_setValue hm _ _
    | null => exact hm
    | bool b => exact hm
    | int n => exact hm
    | str s => exact hm
    | seq s => exact hm

theorem scrTasks_strip_names_from_scripts {m : List (Yaml × Yaml)} (hm : keysNodup m)
    (names : List String) (t : String) :
    scrTasks (strip_names_from_scripts m names) t =
      if t ∈ names then [] else scrTasks m t := by
  rw [strip_names_from_scripts]
  cases hc : mapGet m (.str "scripts") with
  | none =>
    have hz : scrTasks m t = [] := by
      rw [scrTasks, sectionMapOf, hc]
      rfl
    rw [hz]
    split <;> rfl
  | some v =>
    cases v with
    | map scripts =>
      simp only []
      split
      · next hemp =>
        have hnil : scripts.filter (keepEntry names) = [] := by
          simpa [List.isEmpty_iff] using hemp
        rw [scrTasks, sectionMapOf, mapGet_swapRemovePair_self hm]
        by_cases ht : t ∈ names
        · rw [if_pos ht]
          rfl
        · rw [if_neg ht, scrTasks, sectionMapOf, hc]
          have hz : tEntries scripts t = [] := by
            have h1 := tEntries_filter_keepEntry scripts names t
            rw [hnil, if_neg ht] at h1
            simpa [tEntries] using h1.symm
          rw [valMapOf, hz]
          rfl
      · next hemp =>
        rw [scrTasks, sectionMapOf, mapGet_setValue_self hc, valMapOf,
          tEntries_filter_keepEntry]
        by_cases ht : t ∈ names
        · rw [if_pos ht, if_pos ht]
          rfl
        · rw [if_neg ht, if_neg ht, scrTasks, sectionMapOf, hc, valMapOf]
    | null =>
      have hz : scrTasks m t = [] := by
        rw [scrTasks, sectionMapOf, hc]
        rfl
      rw [hz]
      split <;> rfl
    | bool b =>
      have hz : scrTasks m t = [] := by
        rw [scrTasks, sectionMapOf, hc]
        rfl
      rw [hz]
      split <;> rfl
    | int n =>
      have hz : scrTasks m t = [] := by
        rw [scrTasks, sectionMapOf, hc]
        rfl
      rw [hz]
      split <;> rfl
    | str s =>
      have hz : scrTasks m t = [] := by
        rw [scrTasks, sectionMapOf, hc]
        rfl
      rw [hz]
      split <;> rfl
    | seq s =>
      have hz : scrTasks m t = [] := by
        rw [scrTasks, sectionMapOf, hc]
        rfl
      rw [hz]
      split <;> rfl

theorem mapGet_strip_names_from_jobs {m : List (Yaml × Yaml)} (hm : keysNodup m)
    (names : List String) {k : Yaml} (hk : ¬k = Yaml.str "jobs") :
    mapGet (strip_names_from_jobs m names) k = mapGet m k := by
  rw [strip_names_from_jobs]
  cases hc : mapGet m (.str "jobs") with
  | none => rfl
  | some v =>
    cases v with
    | seq jobs =>
      simp only []
      split
      · exact mapGet_swapRemovePair_other hm hk
      · exact mapGet_setValue_other m _ hk
    | null => rfl
    | bool b => rfl
    | int n => rfl
    | str s => rfl
    | map mm => rfl

theorem keysNodup_strip_names_from_jobs {m : List (Yaml × Yaml)} (hm : keysNodup m)
    (names : List String) : keysNodup (strip_names_from_jobs m names) := by
  rw [strip_names_from_jobs]
  cases hc : mapGet m (.str "jobs") with
  | none => exact hm
  | some v =>
    cases v with
    | seq jobs =>
      simp only []
      split
      · exact keysNodup_swapRemovePair hm _
      · exact keysNodup_setValue hm _ _
    | null => exact hm
    | bool b => exact hm
    | int n => exact hm
    | str s => exact hm
    | map mm => exact hm

theorem jobTasks_strip_names_from_jobs {m : List (Yaml × Yaml)} (hm : keysNodup m)
    (names : List String) (t : String) :
    jobTasks (strip_names_from_jobs m names) t =
      if t ∈ names then [] else jobTasks m t := by
  rw [strip_names_from_jobs]
  cases hc : mapGet m (.str "jobs") with
  | none =>
    have hz : jobTasks m t = [] := by
      rw [jobTasks, jobsSeqOf, hc]
      rfl
    rw [hz]
    split <;> rfl
  | some v =>
    cases v with
    | seq jobs =>
      simp only []
      split
      · next hemp =>
        have hnil : jobs.filter (keepJob names) = [] := by
          simpa [List.isEmpty_iff] using hemp
        rw [jobTasks, jobsSeqOf, mapGet_swapRemovePair_self hm]
        by_cases ht : t ∈ names
        · rw [if_pos ht]
          rfl
        · rw [if_neg ht, jobTasks, jobsSeqOf, hc]
          have hz : jEntries jobs t = [] := by
            have h1 := jEntries_filter_keepJob jobs names t
            rw [hnil, if_neg ht] at h1
            simpa [jEntries] using h1.symm
          rw [valSeqOf, hz]
          rfl
      · next hemp =>
        rw [jobTasks, jobsSeqOf, mapGet_setValue_self hc, valSeqOf,
          jEntries_filter_keepJob]
        by_cases ht : t ∈ names
        · rw [if_pos ht, if_pos ht]
        · rw [if_neg ht, if_neg ht, jobTasks, jobsSeqOf, hc, valSeqOf]
    | null =>
      have hz : jobTasks m t = [] := by
        rw [jobTasks, jobsSeqOf, hc]
        rfl
      rw [hz]
      split <;> rfl
    | bool b =>
      have hz : jobTasks m t = [] := by
        rw [jobTasks, jobsSeqOf, hc]
        rfl
      rw [hz]
      split <;> rfl
    | int n =>
      have hz : jobTasks m t = [] := by
        rw [jobTasks, jobsSeqOf, hc]
        rfl
      rw [hz]
      split <;> rfl
    | str s =>
      have hz : jobTasks m t = [] := by
        rw [jobTasks, jobsSeqOf, hc]
        rfl
      rw [hz]
      split <;> rfl
    | map mm =>
      have hz : jobTasks m t = [] := by
        rw [jobTasks, jobsSeqOf, hc]
        rfl
      rw [hz]
      split <;> rfl

/-- The strip phase, per task identity: stripped identities disappear from
every format; other identities keep all their occurrences untouched. -/
theorem strippedGlobal_spec {g : List (Yaml × Yaml)} (hg : keysNodup g)
    (names : List String) (t : String) :
    keysNodup (strippedGlobal g names) ∧
    cmdTasks (strippedGlobal g names) t = (if t ∈ names then [] else cmdTasks g t) ∧
    scrTasks (strippedGlobal g names) t = (if t ∈ names then [] else scrTasks g t) ∧
    jobTasks (strippedGlobal g names) t = (if t ∈ names then [] else jobTasks g t) := by
  rw [strippedGlobal]
  by_cases hn : names.isEmpty
  · rw [if_pos hn]
    have hnil : names = [] := List.isEmpty_iff.1 hn
    subst hnil
    refine ⟨hg, ?_, ?_, ?_⟩ <;> simp
  · rw [if_neg hn]
    have h1 := keysNodup_strip_names_from_commands hg names
    have h2 := keysNodup_strip_names_from_scripts h1 names
    have h3 := keysNodup_strip_names_from_jobs h2 names
    refine ⟨h3, ?_, ?_, ?_⟩
    · rw [cmdTasks_congr (mapGet_strip_names_from_jobs h2 names (by decide)) t,
        cmdTasks_congr (mapGet_strip_names_from_scripts h1 names (by decide)) t]
      exact cmdTasks_strip_names_from_commands hg names t
    · rw [scrTasks_congr (mapGet_strip_names_from_jobs h2 names (by decide)) t,
        scrTasks_strip_names_from_scripts h1 names t,
        scrTasks_congr (mapGet_strip_names_from_commands hg names (by decide)) t]
    · rw [jobTasks_strip_names_from_jobs h2 names t,
        jobTasks_congr (mapGet_strip_names_from_scripts h1 names (by decide)) t,
        jobTasks_congr (mapGet_strip_names_from_commands hg names (by decide)) t]

/-! ## How the merge loop acts on each section -/

theorem hookCombine_commands (gv : Option Yaml) (v : Yaml) :
    hookCombine gv (.str "commands") v =
      match gv with
      | some g => merge_maps g v
      | none => v := rfl

theorem hookCombine_scripts (gv : Option Yaml) (v : Yaml) :
    hookCombine gv (.str "scripts") v =
      match gv with
      | some g => merge_maps g v
      | none => v := rfl

theorem hookCombine_jobs (gv : Option Yaml) (v : Yaml) :
    hookCombine gv (.str "jobs") v =
      match gv with
      | some g => merge_jobs g v
      | none => v := rfl

theorem jEntries_filter (p : Yaml → Bool) (js : List Yaml) (t : String) :
    jEntries (js.filter p) t = (jEntries js t).filter p := by
  rw [jEntries, jEntries, List.filter_comm]

theorem cmdTasks_fold {g1 r : List (Yaml × Yaml)} (hg1 : keysNodup g1)
    (hr : keysNodup r) (t : String) (hz : cmdTasks g1 t = [])
    (hle : (cmdTasks r t).length ≤ 1) :
    cmdTasks (r.foldl merge_hook_step g1) t = cmdTasks r t := by
  have hzg : tEntries (sectionMapOf g1 "commands") t = [] := by
    rw [cmdTasks] at hz
    exact List.map_eq_nil_iff.1 hz
  cases hrc : mapGet r (.str "commands") with
  | none =>
    rw [cmdTasks, sectionMapOf,
      merge_hook_fold_get_notmem hg1 (mapGet_eq_none_iff.1 hrc),
      cmdTasks, sectionMapOf, hrc, ← sectionMapOf, hzg]
    rfl
  | some rv =>
    rw [cmdTasks, sectionMapOf,
      merge_hook_fold_get_mem hg1 hr (mapGet_mem hrc),
      cmdTasks, sectionMapOf, hrc, hookCombine_commands]
    cases hgc : mapGet g1 (.str "commands") with
    | none => rfl
    | some gv =>
      rw [sectionMapOf, hgc] at hzg
      cases gv with
      | map gc =>
        rw [valMapOf] at hzg
        cases rv with
        | map rc =>
          simp only [merge_maps, valMapOf]
          by_cases hrz : tEntries rc t = []
          · rw [tEntries_mergeMapsList_zero hrz, hzg, hrz]
          · have hlen : (tEntries rc t).length = 1 := by
              rw [cmdTasks, sectionMapOf, hrc, valMapOf] at hle
              rw [List.length_map] at hle
              have := List.length_pos_of_ne_nil hrz
              omega
            obtain ⟨o, ho⟩ := List.length_eq_one.1 hlen
            rw [tEntries_mergeMapsList_singleton hzg ho, ho]
        | null => rfl
        | bool b => rfl
        | int n => rfl
        | str s => rfl
        | seq s => rfl
      | null => rfl
      | bool b => rfl
      | int n => rfl
      | str s => rfl
      | seq s => rfl

theorem scrTasks_fold {g1 r : List (Yaml × Yaml)} (hg1 : keysNodup g1)
    (hr : keysNodup r) (t : String) (hz : scrTasks g1 t = [])
    (hle : (scrTasks r t).length ≤ 1) :
    scrTasks (r.foldl merge_hook_step g1) t = scrTasks r t := by
  have hzg : tEntries (sectionMapOf g1 "scripts") t = [] := by
    rw [scrTasks] at hz
    exact List.map_eq_nil_iff.1 hz
  cases hrc : mapGet r (.str "scripts") with
  | none =>
    rw [scrTasks, sectionMapOf,
      merge_hook_fold_get_notmem hg1 (mapGet_eq_none_iff.1 hrc),
      scrTasks, sectionMapOf, hrc, ← sectionMapOf, hzg]
    rfl
  | some rv =>
    rw [scrTasks, sectionMapOf,
      merge_hook_fold_get_mem hg1 hr (mapGet_mem hrc),
      scrTasks, sectionMapOf, hrc, hookCombine_scripts]
    cases hgc : mapGet g1 (.str "scripts") with
    | none => rfl
    | some gv =>
      rw [sectionMapOf, hgc] at hzg
      cases gv with
      | map gc =>
        rw [valMapOf] at hzg
        cases rv with
        | map rc =>
          simp only [merge_maps, valMapOf]
          by_cases hrz : tEntries rc t = []
          · rw [tEntries_mergeMapsList_zero hrz, hzg, hrz]
          · have hlen : (tEntries rc t).length = 1 := by
              rw [scrTasks, sectionMapOf, hrc, valMapOf] at hle
              rw [List.length_map] at hle
              have := List.length_pos_of_ne_nil hrz
              omega
            obtain ⟨o, ho⟩ := List.length_eq_one.1 hlen
            rw [tEntries_mergeMapsList_singleton hzg ho, ho]
        | null => rfl
        | bool b => rfl
        | int n => rfl
        | str s => rfl
        | seq s => rfl
      | null => rfl
      | bool b => rfl
      | int n => rfl
      | str s => rfl
      | seq s => rfl

theorem jobTasks_fold {g1 r : List (Yaml × Yaml)} (hg1 : keysNodup g1)
    (hr : keysNodup r) (t : String) (hz : jobTasks g1 t = []) :
    jobTasks (r.foldl merge_hook_step g1) t = jobTasks r t := by
  have hzg : jEntries (jobsSeqOf g1) t = [] := hz
  cases hrc : mapGet r (.str "jobs") with
  | none =>
    rw [jobTasks, jobsSeqOf,
      merge_hook_fold_get_notmem hg1 (mapGet_eq_none_iff.1 hrc),
      jobTasks, jobsSeqOf, hrc, ← jobsSeqOf]
    exact hzg
  | some rv =>
    rw [jobTasks, jobsSeqOf,
      merge_hook_fold_get_mem hg1 hr (mapGet_mem hrc),
      jobTasks, jobsSeqOf, hrc, hookCombine_jobs]
    cases hgc : mapGet g1 (.str "jobs") with
    | none => rfl
    | some gv =>
      rw [jobsSeqOf, hgc] at hzg
      cases gv with
      | seq gj =>
        rw [valSeqOf] at hzg
        cases rv with
        | seq rj =>
          simp only [merge_jobs, valSeqOf]
          rw [jEntries, List.filter_append, ← jEntries, ← jEntries,
            jEntries_filter, hzg]
          rfl
        | null => rfl
        | bool b => rfl
        | int n => rfl
        | str s => rfl
        | map mm => rfl
      | null => rfl
      | bool b => rfl
      | int n => rfl
      | str s => rfl
      | map mm => rfl

theorem length_cmdTasks_fold_le {g1 r : List (Yaml × Yaml)} (hg1 : keysNodup g1)
    (hr : keysNodup r) (t : String) :
    (cmdTasks (r.foldl merge_hook_step g1) t).length ≤
      (cmdTasks g1 t).length + (cmdTasks r t).length := by
  cases hrc : mapGet r (.str "commands") with
  | none =>
    rw [cmdTasks, sectionMapOf,
      merge_hook_fold_get_notmem hg1 (mapGet_eq_none_iff.1 hrc),
      ← sectionMapOf, ← cmdTasks]
    omega
  | some rv =>
    rw [cmdTasks, sectionMapOf,
      merge_hook_fold_get_mem hg1 hr (mapGet_mem hrc), hookCombine_commands]
    have hR : cmdTasks r t = (tEntries (valMapOf (some rv)) t).map Prod.snd := by
      rw [cmdTasks, sectionMapOf, hrc]
    cases hgc : mapGet g1 (.str "commands") with
    | none =>
      rw [← hR]
      omega
    | some gv =>
      have hG : cmdTasks g1 t = (tEntries (valMapOf (some gv)) t).map Prod.snd := by
        rw [cmdTasks, sectionMapOf, hgc]
      cases gv with
      | map gc =>
        cases rv with
        | map rc =>
          simp only [merge_maps, valMapOf]
          rw [valMapOf] at hR hG
          rw [hR, hG, List.length_map, List.length_map, List.length_map]
          exact length_tEntries_mergeMapsList_le gc rc t
        | null => simp [merge_maps, valMapOf, tEntries]
        | bool b => simp [merge_maps, valMapOf, tEntries]
        | int n => simp [merge_maps, valMapOf, tEntries]
        | str s => simp [merge_maps, valMapOf, tEntries]
        | seq s => simp [merge_maps, valMapOf, tEntries]
      | null =>
        rw [hR]
        exact Nat.le_add_left _ _
      | bool b =>
        rw [hR]
        exact Nat.le_add_left _ _
      | int n =>
        rw [hR]
        exact Nat.le_add_left _ _
      | str s =>
        rw [hR]
        exact Nat.le_add_left _ _
      | seq s =>
        rw [hR]
        exact Nat.le_add_left _ _

theorem length_scrTasks_fold_le {g1 r : List (Yaml × Yaml)} (hg1 : keysNodup g1)
    (hr : keysNodup r) (t : String) :
    (scrTasks (r.foldl merge_hook_step g1) t).length ≤
      (scrTasks g1 t).length + (scrTasks r t).length := by
  cases hrc : mapGet r (.str "scripts") with
  | none =>
    rw [scrTasks, sectionMapOf,
      merge_hook_fold_get_notmem hg1 (mapGet_eq_none_iff.1 hrc),
      ← sectionMapOf, ← scrTasks]
    omega
  | some rv =>
    rw [scrTasks, sectionMapOf,
      merge_hook_fold_get_mem hg1 hr (mapGet_mem hrc), hookCombine_scripts]
    have hR : scrTasks r t = (tEntries (valMapOf (some rv)) t).map Prod.snd := by
      rw [scrTasks, sectionMapOf, hrc]
    cases hgc : mapGet g1 (.str "scripts") with
    | none =>
      rw [← hR]
      omega
    | some gv =>
      have hG : scrTasks g1 t = (tEntries (valMapOf (some gv)) t).map Prod.snd := by
        rw [scrTasks, sectionMapOf, hgc]
      cases gv with
      | map gc =>
        cases rv with
        | map rc =>
          simp only [merge_maps, valMapOf]
          rw [valMapOf] at hR hG
          rw [hR, hG, List.length_map, List.length_map, List.length_map]
          exact length_tEntries_mergeMapsList_le gc rc t
        | null => simp [merge_maps, valMapOf, tEntries]
        | bool b => simp [merge_maps, valMapOf, tEntries]
        | int n => simp [merge_maps, valMapOf, tEntries]
        | str s => simp [merge_maps, valMapOf, tEntries]
        | seq s => simp [merge_maps, valMapOf, tEntries]
      | null =>
        rw [hR]
        exact Nat.le_add_left _ _
      | bool b =>
        rw [hR]
        exact Nat.le_add_left _ _
      | int n =>
        rw [hR]
        exact Nat.le_add_left _ _
      | str s =>
        rw [hR]
        exact Nat.le_add_left _ _
      | seq s =>
        rw [hR]
        exact Nat.le_add_left _ _

theorem length_jobTasks_fold_le {g1 r : List (Yaml × Yaml)} (hg1 : keysNodup g1)
    (hr : keysNodup r) (t : String) :
    (jobTasks (r.foldl merge_hook_step g1) t).length ≤
      (jobTasks g1 t).length + (jobTasks r t).length := by
  cases hrc : mapGet r (.str "jobs") with
  | none =>
    rw [jobTasks, jobsSeqOf,
      merge_hook_fold_get_notmem hg1 (mapGet_eq_none_iff.1 hrc),
      ← jobsSeqOf, ← jobTasks]
    omega
  | some rv =>
    rw [jobTasks, jobsSeqOf,
      merge_hook_fold_get_mem hg1 hr (mapGet_mem hrc), hookCombine_jobs]
    have hR : jobTasks r t = jEntries (valSeqOf (some rv)) t := by
      rw [jobTasks, jobsSeqOf, hrc]
    cases hgc : mapGet g1 (.str "jobs") with
    | none =>
      rw [← hR]
      omega
    | some gv =>
      have hG : jobTasks g1 t = jEntries (valSeqOf (some gv)) t := by
        rw [jobTasks, jobsSeqOf, hgc]
      cases gv with
      | seq gj =>
        cases rv with
        | seq rj =>
          simp only [merge_jobs, valSeqOf]
          rw [valSeqOf] at hR hG
          rw [hR, hG, jEntries, List.filter_append, ← jEntries, ← jEntries,
            jEntries_filter, List.length_append]
          have := List.length_filter_le (fun job =>
            match job_name job with
            | some name => !(rj.map job_name).contains (some name)
            | none => true) (jEntries gj t)
          omega
        | null => simp [merge_jobs, valSeqOf, jEntries]
        | bool b => simp [merge_jobs, valSeqOf, jEntries]
        | int n => simp [merge_jobs, valSeqOf, jEntries]
        | str s => simp [merge_jobs, valSeqOf, jEntries]
        | map mm => simp [merge_jobs, valSeqOf, jEntries]
      | null =>
        rw [hR]
        exact Nat.le_add_left _ _
      | bool b =>
        rw [hR]
        exact Nat.le_add_left _ _
      | int n =>
        rw [hR]
        exact Nat.le_add_left _ _
      | str s =>
        rw [hR]
        exact Nat.le_add_left _ _
      | map mm =>
        rw [hR]
        exact Nat.le_add_left _ _

/-! ## Claims about the hook-definition merge (C1, C3) -/

theorem merge_hook_map_map (g r : List (Yaml × Yaml)) :
    merge_hook (.map g) (.map r) =
      .map (r.foldl merge_hook_step
        (strippedGlobal g (collect_task_names_from_mapping r))) := rfl

theorem occurrencesY_map (m : List (Yaml × Yaml)) (t : String) :
    occurrencesY (.map m) t = taskOccurrences m t := rfl

theorem countNameY_map (m : List (Yaml × Yaml)) (t : String) :
    countNameY (.map m) t = countName m t := rfl

/-- C1: For every global and overlay hook definition that are both
mappings (with the IndexMap distinct-key invariant), and every task
identity present in the global definition and carried exactly once by the
overlay, the merged definition contains that identity exactly once, with
the overlay's task spec under the overlay's format, regardless of which
of the three formats the global definition used for it. -/
theorem c1_cross_format_shadowing (g r : List (Yaml × Yaml)) (t : String)
    (o : String × Yaml) (hg : keysNodup g) (hr : keysNodup r)
    (hpres : t ∈ collect_task_names_from_mapping g)
    (hover : taskOccurrences r t = [o]) :
    occurrencesY (merge_hook (.map g) (.map r)) t = [o] := by
  have hlen := congrArg List.length hover
  simp only [taskOccurrences, List.length_append, List.length_map,
    List.length_singleton] at hlen
  have hmem : t ∈ collect_task_names_from_mapping r := by
    rw [mem_collect_iff, countName]
    omega
  obtain ⟨hnd1, hc1, hs1, hj1⟩ :=
    strippedGlobal_spec hg (collect_task_names_from_mapping r) t
  rw [if_pos hmem] at hc1 hs1 hj1
  rw [merge_hook_map_map, occurrencesY_map, taskOccurrences,
    cmdTasks_fold hnd1 hr t hc1 (by omega),
    scrTasks_fold hnd1 hr t hs1 (by omega),
    jobTasks_fold hnd1 hr t hj1,
    ← taskOccurrences, hover]

/-- C1 witness: the spec's cross-format example. Global declares `test`
under `commands`; overlay declares it once under `jobs`; the merged
definition holds exactly the overlay's job, and nothing under `commands`. -/
theorem c1_cross_format_shadowing_witness :
    occurrencesY
      (merge_hook
        (.map [(.str "commands", .map [(.str "test", .map [(.str "run", .str "A")])])])
        (.map [(.str "jobs",
          .seq [.map [(.str "name", .str "test"), (.str "run", .str "B")]])]))
      "test" =
      [("jobs", Yaml.map [(.str "name", .str "test"), (.str "run", .str "B")])] :=
  c1_cross_format_shadowing
    [(.str "commands", .map [(.str "test", .map [(.str "run", .str "A")])])]
    [(.str "jobs", .seq [.map [(.str "name", .str "test"), (.str "run", .str "B")]])]
    "test"
    ("jobs", Yaml.map [(.str "name", .str "test"), (.str "run", .str "B")])
    (by decide) (by decide) (by decide) (by decide)

/-- C3 counterexample: an overlay that itself declares the identity `t`
both under `commands` and under `jobs` produces a merged definition in
which `t` resolves twice, refuting the claim for such overlays. -/
theorem c3_counterexample :
    countNameY
      (merge_hook (.map [])
        (.map [(.str "commands", .map [(.str "t", .map [(.str "run", .str "A")])]),
               (.str "jobs",
                 .seq [.map [(.str "name", .str "t"), (.str "run", .str "B")]])]))
      "t" = 2 := by decide

/-- C3 (amended): provided each of the two hook definitions declares every
task identity at most once across `commands`, `scripts` and `jobs` (and
satisfies the IndexMap distinct-key invariant), no identity resolves more
than once in the merged definition. -/
theorem c3_no_duplicate_identities (g r : List (Yaml × Yaml))
    (hg : keysNodup g) (hr : keysNodup r)
    (hgw : (collect_task_names_from_mapping g).Nodup)
    (hrw : (collect_task_names_from_mapping r).Nodup) (t : String) :
    countNameY (merge_hook (.map g) (.map r)) t ≤ 1 := by
  have hgc : countName g t ≤ 1 := by
    rw [countName_eq_count_collect]
    exact List.nodup_iff_count_le_one.1 hgw t
  have hrc : countName r t ≤ 1 := by
    rw [countName_eq_count_collect]
    exact List.nodup_iff_count_le_one.1 hrw t
  obtain ⟨hnd1, hc1, hs1, hj1⟩ :=
    strippedGlobal_spec hg (collect_task_names_from_mapping r) t
  rw [merge_hook_map_map, countNameY_map, countName]
  have h1 := length_cmdTasks_fold_le hnd1 hr t
  have h2 := length_scrTasks_fold_le hnd1 hr t
  have h3 := length_jobTasks_fold_le hnd1 hr t
  by_cases hmem : t ∈ collect_task_names_from_mapping r
  · rw [if_pos hmem] at hc1 hs1 hj1
    rw [hc1] at h1
    rw [hs1] at h2
    rw [hj1] at h3
    rw [countName] at hrc
    simp only [List.length_nil] at h1 h2 h3
    omega
  · rw [if_neg hmem] at hc1 hs1 hj1
    obtain ⟨hz1, hz2, hz3⟩ := countName_sections_of_notmem hmem
    rw [hc1, hz1] at h1
    rw [hs1, hz2] at h2
    rw [hj1, hz3] at h3
    rw [countName] at hgc
    simp only [List.length_nil] at h1 h2 h3
    omega

/-- C3 witness: a well-formed cross-format pair (the spec's shadowing
example) resolves the shadowed identity at most once after merging. -/
theorem c3_no_duplicate_identities_witness :
    countNameY
      (merge_hook
        (.map [(.str "commands", .map [(.str "test", .map [(.str "run", .str "A")])])])
        (.map [(.str "jobs",
          .seq [.map [(.str "name", .str "test"), (.str "run", .str "B")]])]))
      "test" ≤ 1 :=
  c3_no_duplicate_identities
    [(.str "commands", .map [(.str "test", .map [(.str "run", .str "A")])])]
    [(.str "jobs", .seq [.map [(.str "name", .str "test"), (.str "run", .str "B")]])]
    (by decide) (by decide) (by decide) (by decide) "test"

/-! ## Claims about the document merge (C5, C10, C6) -/

/-- C5 counterexample: merging a non-mapping document (here the string
scalar `"doc"`) with an empty-mapping overlay does not return the
document: the overlay replaces it. -/
theorem c5_counterexample : merge_configs (.str "doc") (.map []) ≠ .str "doc" := by
  decide

/-- C5 (amended): for every document that is a mapping, merging it with an
empty-mapping overlay returns it unchanged (right identity on mappings);
a non-mapping document is instead replaced by the overlay. -/
theorem c5_empty_overlay_identity : ∀ g : List (Yaml × Yaml),
    merge_configs (.map g) (.map []) = .map g := fun _ => rfl

/-- C10: when the overlay document is not a mapping (for example the null
value an empty YAML file parses to), the document merge returns the
overlay itself, discarding the entire global document. -/
theorem c10_non_mapping_overlay (g r : Yaml) (h : ∀ m, r ≠ .map m) :
    merge_configs g r = r := by
  cases r with
  | map m => exact absurd rfl (h m)
  | null => cases g <;> rfl
  | bool b => cases g <;> rfl
  | int n => cases g <;> rfl
  | str s => cases g <;> rfl
  | seq s => cases g <;> rfl

/-- C10 witness: a global document with a hook definition merged with a
null overlay yields null — every global key is lost. -/
theorem c10_non_mapping_overlay_witness :
    merge_configs
      (.map [(.str "pre-push", .map [(.str "commands",
        .map [(.str "t", .map [(.str "run", .str "g")])])]),
        (.str "output", .str "success")])
      .null = .null :=
  c10_non_mapping_overlay _ _ (fun _ h => nomatch h)

/-- Top-level keys of a document, in serialization order. -/
def yamlKeys : Yaml → List Yaml
  | .map m => mapKeys m
  | _ => []

/-- C6: evaluating the merge at a config whose `pre-push` hook key is
followed by two other keys shows that `Mapping::remove` (swap-remove)
breaks key order: the last key `min_version` moves into the removed
slot and the merged hook key is re-appended at the end, so the surviving
global keys `output` and `min_version` come out in reversed relative
order. -/
theorem c6_swap_remove_reorders_keys :
    yamlKeys
      (.map [(.str "pre-push", .map [(.str "commands",
          .map [(.str "t", .map [(.str "run", .str "g")])])]),
        (.str "output", .int 1), (.str "min_version", .int 2)]) =
      [.str "pre-push", .str "output", .str "min_version"] ∧
    yamlKeys
      (merge_configs
        (.map [(.str "pre-push", .map [(.str "commands",
            .map [(.str "t", .map [(.str "run", .str "g")])])]),
          (.str "output", .int 1), (.str "min_version", .int 2)])
        (.map [(.str "pre-push", .map [(.str "commands",
          .map [(.str "t", .map [(.str "run", .str "r")])])])])) =
      [.str "min_version", .str "output", .str "pre-push"] := by
  constructor
  · rfl
  · decide

/-! ## C9: error propagation in the run pipeline -/

/-- C9: a read or parse failure of the global or repository configuration
aborts the run (an error result, produced before any document is written
or the engine invoked), while a read or parse failure of the adapter's own
source file only makes `generate_config` yield no fragment: the run
proceeds with the global configuration alone. -/
theorem c9_error_propagation :
    (∀ (e : String) rr ag, run_hook_config (.error e) rr ag = .error e) ∧
    (∀ (g : Yaml) (e : String) ag,
      run_hook_config (.ok g) (some (.error e)) ag = .error e) ∧
    (∀ h, generate_config none h = none) ∧
    (∀ (g : Yaml) h, run_hook_config (.ok g) none (generate_config none h) = .ok g) :=
  ⟨fun _ _ _ => rfl, fun _ _ _ => rfl, fun _ => rfl, fun _ _ => rfl⟩

/-! ## C4: the job-list merge -/

/-- Claim-side shadowing predicate: a job is shadowed by the overlay list
when it carries a `name` equal to the `name` of some overlay entry. -/
def specJobShadowed (rj : List Yaml) (j : Yaml) : Prop :=
  ∃ n, job_name j = some n ∧ ∃ x ∈ rj, job_name x = some n

instance (rj : List Yaml) (j : Yaml) : Decidable (specJobShadowed rj j) :=
  match h : job_name j with
  | some n =>
    decidable_of_iff (∃ x ∈ rj, job_name x = some n)
      (by
        constructor
        · intro hx
          exact ⟨n, h, hx⟩
        · rintro ⟨m, hm, hx⟩
          rw [h] at hm
          injection hm with hm
          rw [hm]
          exact hx)
  | none =>
    isFalse (by
      rintro ⟨n, hn, _⟩
      rw [h] at hn
      exact Option.noConfusion hn)

/-- C4: merging two job lists keeps the global list in order minus exactly
the entries shadowed by a same-named overlay entry, then appends the whole
overlay list in order; unnamed entries are never shadowed (they satisfy no
`specJobShadowed`) and unnamed overlay entries are appended like any
other, as in the spec's example. -/
theorem c4_merge_job_lists :
    (∀ gj rj : List Yaml,
      merge_jobs (.seq gj) (.seq rj) =
        .seq (gj.filter (fun j => decide (¬specJobShadowed rj j)) ++ rj)) ∧
    (∀ (rj : List Yaml) (j : Yaml), job_name j = none → ¬specJobShadowed rj j) ∧
    merge_jobs (.seq [.map [(.str "run", .str "g1")]])
        (.seq [.map [(.str "run", .str "o1")]]) =
      .seq [.map [(.str "run", .str "g1")], .map [(.str "run", .str "o1")]] := by
  refine ⟨?_, ?_, by decide⟩
  · intro gj rj
    simp only [merge_jobs]
    congr 2
    apply List.filter_congr
    intro j _
    cases hn : job_name j with
    | none =>
      simp only []
      have : ¬specJobShadowed rj j := by
        rintro ⟨n, hnn, _⟩
        rw [hn] at hnn
        exact Option.noConfusion hnn
      simp [this]
    | some n =>
      simp only []
      have hiff : specJobShadowed rj j ↔ ∃ x ∈ rj, job_name x = some n := by
        constructor
        · rintro ⟨m, hm, hx⟩
          rw [hn] at hm
          injection hm with hm
          rw [hm]
          exact hx
        · intro hx
          exact ⟨n, hn, hx⟩
      by_cases hc : ∃ x ∈ rj, job_name x = some n
      · have h1 : (rj.map job_name).contains (some n) = true := by
          simpa [List.mem_map] using hc
        rw [h1]
        have h2 : specJobShadowed rj j := hiff.2 hc
        simp [h2]
      · have h1 : (rj.map job_name).contains (some n) = false := by
          simpa [List.mem_map] using hc
        rw [h1]
        have h2 : ¬specJobShadowed rj j := fun hs => hc (hiff.1 hs)
        simp [h2]
  · intro rj j hn
    rintro ⟨n, hnn, _⟩
    rw [hn] at hnn
    exact Option.noConfusion hnn

/-! ## C7: glob derivation from file-type tags -/

/-- Claim-side union of extensions: each tag of `types` then `types_or`
mapped through the fixed table (unknown tags dropped), deduplicated and
sorted (sorting first makes adjacent-deduplication a true set dedup). -/
def specGlobExtensions (types types_or : List String) : List String :=
  dedupStr (sortStrings ((types ++ types_or).flatMap (fun ty =>
    match type_to_extensions ty with
    | some e => splitComma e
    | none => [])))

/-- Claim-side rendering: no glob for an empty set, `*.ext` for one
extension, a braced comma-joined alternation for several. -/
def specRenderGlob (exts : List String) : Option String :=
  match exts with
  | [] => none
  | [e] => some ("*." ++ e)
  | es => some ("*.\x7b" ++ String.intercalate "," es ++ "\x7d")

theorem flatMap_filterMap_type_to_extensions (l : List String) :
    (l.filterMap type_to_extensions).flatMap splitComma =
      l.flatMap (fun ty =>
        match type_to_extensions ty with
        | some e => splitComma e
        | none => []) := by
  induction l with
  | nil => rfl
  | cons x xs ih =>
    cases hx : type_to_extensions x <;>
      simp [List.filterMap_cons, hx, List.flatMap_cons, ih]

/-- C7 counterexample: for `types: [yaml]` the code sorts the extension
set, producing the brace alternation in sorted order `yaml,yml`, not the
claimed `yml,yaml`. -/
theorem c7_counterexample :
    types_to_glob ["yaml"] [] ≠ some "*.\x7byml,yaml\x7d" := by decide

/-- C7 (amended): the derived glob is exactly the render of the sorted,
deduplicated union of the table images of `types` and `types_or` (unknown
tags dropped); `types:[yaml]` yields the sorted alternation
`*.(yaml,yml)` (braces), `types:[python]` yields `*.py`, and `types:[file]`
yields no glob. -/
theorem c7_glob_derivation :
    (∀ types types_or, types_to_glob types types_or =
      specRenderGlob (specGlobExtensions types types_or)) ∧
    types_to_glob ["yaml"] [] = some "*.\x7byaml,yml\x7d" ∧
    types_to_glob ["python"] [] = some "*.py" ∧
    types_to_glob ["file"] [] = none := by
  refine ⟨?_, by decide, by decide, by decide⟩
  intro types types_or
  have h : (types.filterMap type_to_extensions).flatMap splitComma ++
      (types_or.filterMap type_to_extensions).flatMap splitComma =
      (types ++ types_or).flatMap (fun ty =>
        match type_to_extensions ty with
        | some e => splitComma e
        | none => []) := by
    rw [List.flatMap_append, flatMap_filterMap_type_to_extensions,
      flatMap_filterMap_type_to_extensions]
  rw [types_to_glob, specGlobExtensions, ← h]
  cases dedupStr (sortStrings
      ((types.filterMap type_to_extensions).flatMap splitComma ++
        (types_or.filterMap type_to_extensions).flatMap splitComma)) with
  | nil => rfl
  | cons a l =>
    cases l with
    | nil => rfl
    | cons b l2 => rfl

/-! ## C2: where the annotation step is applied -/

/-- C2 counterexample: in the repository-config path the dispatched
document is the bare merge, never annotated. With a global `pre-push`
hook (not in the serial set) and an empty repo config, the dispatched
document's `pre-push` hook carries no `parallel` key at all. -/
theorem c2_counterexample :
    run_hook_config
      (.ok (.map [(.str "pre-push",
        .map [(.str "commands", .map [(.str "t", .map [(.str "run", .str "x")])])])]))
      (some (.ok (.map []))) none =
      .ok (.map [(.str "pre-push",
        .map [(.str "commands", .map [(.str "t", .map [(.str "run", .str "x")])])])]) ∧
    mapGet [(.str "commands", .map [(.str "t", .map [(.str "run", .str "x")])])]
      (.str "parallel") = none := by
  constructor
  · rfl
  · rfl

/-- C2 (amended): the annotation step runs exactly once, but on the
adapter-synthesized fragment before the merge with the global config, not
on the final resolved document: the repository path dispatches the bare
merge, the global-only path dispatches the bare global config, and only
the adapter fragment is annotated — there every hook-name key outside the
serial set gains `parallel: true`, and `pre-commit` / `pre-merge-commit`
gain `stage_fixed: true` on every mapping entry of their `commands` map. -/
theorem c2_annotation_placement :
    (∀ (g rv : Yaml) (ag : Option Yaml),
      run_hook_config (.ok g) (some (.ok rv)) ag = .ok (merge_configs g rv)) ∧
    (∀ g av : Yaml,
      run_hook_config (.ok g) none (some av) =
        .ok (merge_configs g (annotate_hooks av))) ∧
    (∀ g : Yaml, run_hook_config (.ok g) none none = .ok g) ∧
    (∀ (name : String) (hm : List (Yaml × Yaml)),
      is_hook_name name = true → SERIAL_HOOKS.contains name = false →
      ∃ hm2, annotate_entry (.str name, .map hm) = (.str name, .map hm2) ∧
        mapGet hm2 (.str "parallel") = some (.bool true)) ∧
    (∀ (name : String) (hm cmds : List (Yaml × Yaml)),
      (name = "pre-commit" ∨ name = "pre-merge-commit") →
      mapGet hm (.str "commands") = some (.map cmds) →
      ∃ hm2, annotate_entry (.str name, .map hm) = (.str name, .map hm2) ∧
        mapGet hm2 (.str "commands") = some (.map (cmds.map set_stage_fixed_cmd)) ∧
        ∀ (ck : Yaml) (cm : List (Yaml × Yaml)), (ck, .map cm) ∈ cmds →
          (ck, .map (mapInsert cm (.str "stage_fixed") (.bool true))) ∈
            cmds.map set_stage_fixed_cmd ∧
          mapGet (mapInsert cm (.str "stage_fixed") (.bool true))
            (.str "stage_fixed") = some (.bool true)) := by
  refine ⟨fun _ _ _ => rfl, fun _ _ => rfl, fun _ => rfl, ?_, ?_⟩
  · intro name hm h1 h2
    have hne : ¬(name = "pre-commit" ∨ name = "pre-merge-commit") := by
      rintro (h | h) <;> subst h <;> simp [SERIAL_HOOKS] at h2
    refine ⟨mapInsert hm (.str "parallel") (.bool true), ?_,
      mapGet_mapInsert_self ..⟩
    rw [annotate_entry]
    simp only [asStr, h1, h2, if_true, Bool.not_false, if_pos, hne, if_false, if_neg,
      not_false_eq_true]
  · intro name hm cmds hser hcm
    have h1 : is_hook_name name = true := by
      rcases hser with h | h <;> subst h <;> decide
    have h2 : SERIAL_HOOKS.contains name = true := by
      rcases hser with h | h <;> subst h <;> decide
    refine ⟨set_stage_fixed hm, ?_, ?_, ?_⟩
    · rw [annotate_entry]
      simp only [asStr, h1, h2, if_true, Bool.not_true, if_false, if_pos, hser, if_neg]
      rfl
    · rw [set_stage_fixed, hcm]
      exact mapGet_setValue_self hcm _
    · intro ck cm hmem
      refine ⟨?_, mapGet_mapInsert_self ..⟩
      have heq : set_stage_fixed_cmd (ck, .map cm) =
          (ck, .map (mapInsert cm (.str "stage_fixed") (.bool true))) := rfl
      rw [← heq]
      exact List.mem_map_of_mem set_stage_fixed_cmd hmem

/-- C2 witness: the annotation conjuncts instantiated — `pre-push` gains
`parallel: true`; `pre-commit` rewrites its single command with
`stage_fixed: true`. -/
theorem c2_annotation_placement_witness :
    (∃ hm2, annotate_entry (.str "pre-push", .map []) = (.str "pre-push", .map hm2) ∧
      mapGet hm2 (.str "parallel") = some (.bool true)) ∧
    (∃ hm2,
      annotate_entry (.str "pre-commit",
          .map [(.str "commands", .map [(.str "foo", .map [])])]) =
        (.str "pre-commit", .map hm2) ∧
      mapGet hm2 (.str "commands") =
        some (.map ([((Yaml.str "foo"), Yaml.map [])].map set_stage_fixed_cmd)) ∧
      ∀ (ck : Yaml) (cm : List (Yaml × Yaml)),
        (ck, .map cm) ∈ [((Yaml.str "foo"), Yaml.map [])] →
        (ck, .map (mapInsert cm (.str "stage_fixed") (.bool true))) ∈
          [((Yaml.str "foo"), Yaml.map [])].map set_stage_fixed_cmd ∧
        mapGet (mapInsert cm (.str "stage_fixed") (.bool true))
          (.str "stage_fixed") = some (.bool true)) :=
  ⟨c2_annotation_placement.2.2.2.1 "pre-push" [] (by decide) (by decide),
   c2_annotation_placement.2.2.2.2 "pre-commit"
     [(.str "commands", .map [(.str "foo", .map [])])]
     [((Yaml.str "foo"), Yaml.map [])] (Or.inl rfl) (by decide)⟩

/-! ## C8: stage filtering in the pre-commit adapter -/

theorem translate_hook_none_iff (hk : Hook) :
    translate_hook hk = none ↔ hk.entry = none := by
  rw [translate_hook]
  cases hk.entry <;> simp

theorem mem_mapInsert_sub {m : List (Yaml × Yaml)} {k v : Yaml} {e : Yaml × Yaml}
    (h : e ∈ mapInsert m k v) : e = (k, v) ∨ e ∈ m := by
  induction m with
  | nil => simpa [mapInsert] using h
  | cons x rest ih =>
    by_cases hx : x.1 = k
    · rw [mapInsert, if_pos hx] at h
      rcases List.mem_cons.1 h with h | h
      · exact Or.inl h
      · exact Or.inr (List.mem_cons_of_mem _ h)
    · rw [mapInsert, if_neg hx] at h
      rcases List.mem_cons.1 h with h | h
      · exact Or.inr (h ▸ List.mem_cons_self _ _)
      · rcases ih h with h | h
        · exact Or.inl h
        · exact Or.inr (List.mem_cons_of_mem _ h)

theorem mem_keys_hooks_fold (ds : List String) (hn : String) (i : String)
    (hooks : List Hook) (acc : List (Yaml × Yaml)) :
    Yaml.str i ∈ mapKeys (hooks.foldl (pre_commit_hook_step ds hn) acc) ↔
      (Yaml.str i ∈ mapKeys acc ∨
        ∃ hk ∈ hooks, hk.id = i ∧ hk.entry.isSome = true ∧
          hook_matches_stage hk ds hn = true) := by
  induction hooks generalizing acc with
  | nil => simp
  | cons hk rest ih =>
    rw [List.foldl_cons, ih]
    have hcons : (∃ x ∈ hk :: rest, x.id = i ∧ x.entry.isSome = true ∧
        hook_matches_stage x ds hn = true) ↔
        ((hk.id = i ∧ hk.entry.isSome = true ∧ hook_matches_stage hk ds hn = true) ∨
          ∃ x ∈ rest, x.id = i ∧ x.entry.isSome = true ∧
            hook_matches_stage x ds hn = true) := by
      simp [List.mem_cons, or_and_right, exists_or]
    rw [hcons]
    by_cases hm : hook_matches_stage hk ds hn = true
    · rw [pre_commit_hook_step, if_neg (by rw [hm]; simp)]
      cases htr : translate_hook hk with
      | none =>
        have hent : hk.entry.isSome = false := by
          rw [(translate_hook_none_iff hk).1 htr]
          rfl
        constructor
        · rintro (h | h)
          · exact Or.inl h
          · exact Or.inr (Or.inr h)
        · rintro (h | ⟨hid, hsome, hmm⟩ | h)
          · exact Or.inl h
          · rw [hent] at hsome
            exact absurd hsome (by simp)
          · exact Or.inr h
      | some cmd =>
        have hent : hk.entry.isSome = true := by
          cases he : hk.entry with
          | none =>
            rw [(translate_hook_none_iff hk).2 he] at htr
            exact absurd htr (by simp)
          | some e => rfl
        have hstep : Yaml.str i ∈ mapKeys (mapInsert acc (.str hk.id) (.map cmd)) ↔
            (Yaml.str i = Yaml.str hk.id ∨ Yaml.str i ∈ mapKeys acc) :=
          mem_mapKeys_mapInsert
        have hid : (Yaml.str i = Yaml.str hk.id) ↔ hk.id = i := by
          constructor
          · intro h
            injection h with h
            exact h.symm
          · intro h
            rw [h]
        constructor
        · rintro (h | h)
          · rcases hstep.1 h with h2 | h2
            · exact Or.inr (Or.inl ⟨hid.1 h2, hent, hm⟩)
            · exact Or.inl h2
          · exact Or.inr (Or.inr h)
        · rintro (h | ⟨hid2, _, _⟩ | h)
          · exact Or.inl (hstep.2 (Or.inr h))
          · exact Or.inl (hstep.2 (Or.inl (hid.2 hid2)))
          · exact Or.inr h
    · rw [pre_commit_hook_step, if_pos (by simpa using hm)]
      constructor
      · rintro (h | h)
        · exact Or.inl h
        · exact Or.inr (Or.inr h)
      · rintro (h | ⟨_, _, hmm⟩ | h)
        · exact Or.inl h
        · exact absurd hmm hm
        · exact Or.inr h

theorem mem_keys_generate_commands (config : PreCommitConfig) (hook_name i : String) :
    Yaml.str i ∈ mapKeys (generate_commands config hook_name) ↔
      ∃ repo ∈ config.repos, repo.repo = "local" ∧
        ∃ hk ∈ repo.hooks, hk.id = i ∧ hk.entry.isSome = true ∧
          hook_matches_stage hk config.default_stages hook_name = true := by
  rw [generate_commands]
  have h : ∀ acc : List (Yaml × Yaml),
      Yaml.str i ∈ mapKeys (config.repos.foldl
        (pre_commit_repo_step config.default_stages hook_name) acc) ↔
      (Yaml.str i ∈ mapKeys acc ∨
        ∃ repo ∈ config.repos, repo.repo = "local" ∧
          ∃ hk ∈ repo.hooks, hk.id = i ∧ hk.entry.isSome = true ∧
            hook_matches_stage hk config.default_stages hook_name = true) := by
    induction config.repos with
    | nil => simp
    | cons repo rest ih =>
      intro acc
      rw [List.foldl_cons, ih]
      have hcons : (∃ x ∈ repo :: rest, x.repo = "local" ∧
          ∃ hk ∈ x.hooks, hk.id = i ∧ hk.entry.isSome = true ∧
            hook_matches_stage hk config.default_stages hook_name = true) ↔
          ((repo.repo = "local" ∧ ∃ hk ∈ repo.hooks, hk.id = i ∧
            hk.entry.isSome = true ∧
            hook_matches_stage hk config.default_stages hook_name = true) ∨
            ∃ x ∈ rest, x.repo = "local" ∧ ∃ hk ∈ x.hooks, hk.id = i ∧
              hk.entry.isSome = true ∧
              hook_matches_stage hk config.default_stages hook_name = true) := by
        simp [List.mem_cons, or_and_right, exists_or]
      rw [hcons, pre_commit_repo_step]
      by_cases hl : repo.repo ≠ "local"
      · rw [if_pos hl]
        constructor
        · rintro (h | h)
          · exact Or.inl h
          · exact Or.inr (Or.inr h)
        · rintro (h | ⟨hrepo, _⟩ | h)
          · exact Or.inl h
          · exact absurd hrepo hl
          · exact Or.inr h
      · rw [if_neg hl, mem_keys_hooks_fold]
        have hrepo : repo.repo = "local" := not_not.1 hl
        constructor
        · rintro ((h | h) | h)
          · exact Or.inl h
          · exact Or.inr (Or.inl ⟨hrepo, h⟩)
          · exact Or.inr (Or.inr h)
        · rintro (h | ⟨_, h⟩ | h)
          · exact Or.inl (Or.inl h)
          · exact Or.inl (Or.inr h)
          · exact Or.inr h
  have h0 := h []
  simpa [mapKeys] using h0

theorem generate_commands_keys_shape (config : PreCommitConfig) (hn : String) :
    ∀ e ∈ generate_commands config hn, ∃ i, e.1 = Yaml.str i := by
  rw [generate_commands]
  have hin : ∀ (hooks : List Hook) (acc2 : List (Yaml × Yaml)),
      (∀ e ∈ acc2, ∃ i, e.1 = Yaml.str i) →
      ∀ e ∈ hooks.foldl (pre_commit_hook_step config.default_stages hn) acc2,
        ∃ i, e.1 = Yaml.str i := by
    intro hooks
    induction hooks with
    | nil =>
      intro acc2 hacc2
      exact hacc2
    | cons hkk rest2 ih2 =>
      intro acc2 hacc2
      rw [List.foldl_cons]
      apply ih2
      rw [pre_commit_hook_step]
      split
      · exact hacc2
      · split
        · intro e he
          rcases mem_mapInsert_sub he with he | he
          · exact ⟨hkk.id, by rw [he]⟩
          · exact hacc2 e he
        · exact hacc2
  have h : ∀ (repos : List Repo) (acc : List (Yaml × Yaml)),
      (∀ e ∈ acc, ∃ i, e.1 = Yaml.str i) →
      ∀ e ∈ repos.foldl (pre_commit_repo_step config.default_stages hn) acc,
        ∃ i, e.1 = Yaml.str i := by
    intro repos
    induction repos with
    | nil =>
      intro acc hacc
      exact hacc
    | cons repo rest ih =>
      intro acc hacc
      rw [List.foldl_cons]
      apply ih
      rw [pre_commit_repo_step]
      split
      · exact hacc
      · exact hin repo.hooks acc hacc
  exact h config.repos [] (by simp)

/-- C8 counterexample: a local hook with no `entry` and empty stages
satisfies the stage condition (empty effective stages means all stages)
yet contributes nothing — the generated fragment is `None` — refuting the
claimed equivalence between contributing and stage-matching. -/
theorem c8_counterexample :
    hook_matches_stage ⟨"x", none, [], [], none, none, true, [], []⟩ [] "pre-commit" = true ∧
    generate_config
      (some ⟨[⟨"local", [⟨"x", none, [], [], none, none, true, [], []⟩]⟩], []⟩)
      "pre-commit" = none := by
  constructor
  · rfl
  · rfl

/-- C8 (amended): effective stages are the hook's own `stages` when
non-empty, else `default_stages`; a local hook's id is keyed in the
generated `commands` iff the hook has an `entry` and its effective stages
are empty or contain the target hook name; the fragment is `None` iff no
local hook with an `entry` matches the stage; in particular a hook with
`stages: [pre-push]` never matches when generating `pre-commit`. -/
theorem c8_stage_filtering :
    (∀ (hk : Hook) (ds : List String) (n : String),
      hook_matches_stage hk ds n = true ↔
        ((if hk.stages = [] then ds else hk.stages) = [] ∨
          n ∈ (if hk.stages = [] then ds else hk.stages))) ∧
    (∀ (config : PreCommitConfig) (hook_name i : String),
      Yaml.str i ∈ mapKeys (generate_commands config hook_name) ↔
        ∃ repo ∈ config.repos, repo.repo = "local" ∧
          ∃ hk ∈ repo.hooks, hk.id = i ∧ hk.entry.isSome = true ∧
            hook_matches_stage hk config.default_stages hook_name = true) ∧
    (∀ (config : PreCommitConfig) (hook_name : String),
      generate_config (some config) hook_name = none ↔
        ¬∃ repo ∈ config.repos, repo.repo = "local" ∧
          ∃ hk ∈ repo.hooks, hk.entry.isSome = true ∧
            hook_matches_stage hk config.default_stages hook_name = true) ∧
    (∀ (hk : Hook) (ds : List String), hk.stages = ["pre-push"] →
      hook_matches_stage hk ds "pre-commit" = false) := by
  refine ⟨?_, mem_keys_generate_commands, ?_, ?_⟩
  · intro hk ds n
    rw [hook_matches_stage]
    by_cases hs : hk.stages = []
    · have hie : hk.stages.isEmpty = true := by
        rw [hs]
        rfl
      rw [if_pos hs, hie, if_pos rfl]
      simp [List.any_eq_true, List.isEmpty_iff]
    · have hie : hk.stages.isEmpty = false := by
        cases hst : hk.stages with
        | nil => exact absurd hst hs
        | cons a l => rfl
      rw [if_neg hs, hie]
      simp only [Bool.false_eq_true, if_false, Bool.or_eq_true]
      simp [List.any_eq_true, List.isEmpty_iff]
  · intro config hook_name
    by_cases hemp : (generate_commands config hook_name).isEmpty = true
    · have hnil : generate_commands config hook_name = [] := List.isEmpty_iff.1 hemp
      have hgen : generate_config (some config) hook_name = none := by
        simp [generate_config, hemp]
      rw [hgen]
      constructor
      · intro _ hex
        obtain ⟨repo, hrm, hrl, hk, hkm, hent, hmatch⟩ := hex
        have hmem := (mem_keys_generate_commands config hook_name hk.id).2
          ⟨repo, hrm, hrl, hk, hkm, rfl, hent, hmatch⟩
        rw [hnil] at hmem
        simp [mapKeys] at hmem
      · intro _
        rfl
    · have hne : generate_commands config hook_name ≠ [] := by
        intro hh
        rw [hh] at hemp
        exact hemp rfl
      have hgen : generate_config (some config) hook_name ≠ none := by
        simp [generate_config, hemp]
      constructor
      · intro h
        exact absurd h hgen
      · intro hnex
        exfalso
        apply hnex
        obtain ⟨e, he⟩ := List.exists_mem_of_ne_nil _ hne
        obtain ⟨i, hi⟩ := generate_commands_keys_shape config hook_name e he
        have hkey : Yaml.str i ∈ mapKeys (generate_commands config hook_name) := by
          rw [← hi]
          exact List.mem_map_of_mem Prod.fst he
        obtain ⟨repo, hrm, hrl, hk, hkm, _, hent, hmatch⟩ :=
          (mem_keys_generate_commands config hook_name i).1 hkey
        exact ⟨repo, hrm, hrl, hk, hkm, hent, hmatch⟩
  · intro hk ds hst
    rw [hook_matches_stage, hst]
    rfl
